import Mathlib

set_option maxRecDepth 4000

/-
Verification development for the dockerbackup repository.

The definitions below are a shallow embedding of the Go sources:
  pkg/archive  (TarArchiveHandler: CreateArchive / ExtractArchive / ListArchive,
                secureJoin, addSourceToTar, writeFileOrSymlinkToTar)
  pkg/backup   (DefaultBackupEngine: Backup / Restore / Validate, safeName,
                stringReplaceAll, indexOf, conflictWithHostIPv4,
                the port-binding and static-IP reconciliation loops of Restore)
  pkg/compose  (OrderFromComposeYAML)

Paths are modelled as lists of components, as produced by splitting a
Unix path string on the slash character: an absolute path contributes a
leading empty component (so the string "/a/b" is the list ["", "a", "b"],
"a//b" is ["a", "", "b"], "" is []).  All Go filepath functions used by the
sources (Clean, Join, Rel, Base, Dir) are translated on this representation.
The filesystem touched by extraction is modelled as a map from cleaned
component lists to nodes.  Machine-level concerns that the sources delegate
to the OS (symlink resolution inside the kernel, file modes, I/O errors)
are outside the model; the model records exactly which paths the code
creates or overwrites.
-/

/-! Path model: Go path/filepath semantics on component lists. -/

/-- A cleaned path: absoluteness flag plus components, the result of
filepath.Clean.  comps never contains "" or "."; ".." occurs only as a
leading run, and only when abs is false. -/
structure CPath where
  abs : Bool
  comps : List String
deriving DecidableEq, Repr

/-- Core of filepath.Clean: fold components left to right keeping a reversed
stack; "" and "." are dropped; ".." pops a previous component, except that a
".." at the top of an absolute path is dropped and a ".." of a relative path
with nothing left to pop is kept. -/
def cleanCore (abs : Bool) : List String → List String → List String
  | stack, [] => stack.reverse
  | stack, c :: rest =>
    if c = "" ∨ c = "." then cleanCore abs stack rest
    else if c = ".." then
      match stack with
      | [] => if abs then cleanCore abs [] rest else cleanCore abs [".."] rest
      | top :: s' =>
        if top = ".." then cleanCore abs (".." :: top :: s') rest
        else cleanCore abs s' rest
    else cleanCore abs (c :: stack) rest

/-- filepath.Clean on a raw component list.  A leading empty component marks
an absolute path ("/x" splits to ["", "x"]). -/
def cleanPath (raw : List String) : CPath :=
  match raw with
  | "" :: rest => ⟨true, cleanCore true [] rest⟩
  | l => ⟨false, cleanCore false [] l⟩

/-- strings.TrimPrefix(name, "/"): drop one leading slash, i.e. one leading
empty component. -/
def trimOneSlash (raw : List String) : List String :=
  match raw with
  | "" :: rest => rest
  | l => l

/-- filepath.Join(a, b) for an already-cleaned first argument: the strings are
concatenated with a slash and the result cleaned, so the second path's
absoluteness flag is swallowed by the concatenation. -/
def joinCleaned (a : CPath) (b : CPath) : CPath :=
  ⟨a.abs, cleanCore a.abs [] (a.comps ++ b.comps)⟩

/-- filepath.Rel on cleaned component lists of equal absoluteness: strip the
common prefix; the remaining base components are inverted to ".." entries,
except that a ".." remaining in the base makes the relation unresolvable
(Go returns an error there). -/
def relGo : List String → List String → Option (List String)
  | [], ts => some ts
  | b :: bs, [] => if b = ".." then none else some (List.replicate (bs.length + 1) "..")
  | b :: bs, t :: ts =>
    if b = t then relGo bs ts
    else if b = ".." then none
    else some (List.replicate (bs.length + 1) ".." ++ t :: ts)

/-- filepath.Rel(base, targ) for cleaned inputs; mixing an absolute with a
relative path is an error in Go. -/
def relPath (base targ : CPath) : Option (List String) :=
  if base.abs = targ.abs then relGo base.comps targ.comps else none

/-- strings.HasPrefix(s, "..") on one component, written on the character
list so that it evaluates inside the kernel. -/
def startsDotDot (c : String) : Bool :=
  match c.data with
  | '.' :: '.' :: _ => true
  | _ => false

/-- strings.HasPrefix(rel, "..") where rel is the slash-rendered relative
path: the rendered string starts with ".." exactly when its first component
does (components are slash-free). -/
def headHasDotDot (rel : List String) : Bool :=
  match rel with
  | [] => false
  | c :: _ => startsDotDot c

/-- secureJoin from pkg/archive (tar implementation, lines 329-345):
clean the entry name after trimming one leading slash; the name "."
(or "") maps to the destination directory itself; otherwise join under the
base and require the relative position of the result w.r.t. the base to be
neither an error, nor start with "..", nor be absolute (relGo output is
never absolute, so that last Go check is vacuous here).  The Go function
returns the raw baseDir string in the "." case; the model returns its
cleaning, which denotes the same directory. -/
def secureJoin (baseDir : List String) (name : List String) : Option CPath :=
  let cleanName := cleanPath (trimOneSlash name)
  if cleanName.abs = false ∧ cleanName.comps = [] then some (cleanPath baseDir)
  else
    let base := cleanPath baseDir
    let joined := joinCleaned base cleanName
    match relPath base joined with
    | none => none
    | some rel => if headHasDotDot rel then none else some joined

/-! Filesystem model for extraction. -/

/-- A filesystem node: directory, regular file (its byte size), or symlink
(its stored target string, never resolved by the model). -/
inductive Node where
  | dirN : Node
  | fileN : Nat → Node
  | symlinkN : String → Node
deriving DecidableEq, Repr

/-- The filesystem: cleaned component list to node.  All paths in one run
share the absoluteness of the destination directory, so the flag is not part
of the key. -/
def FS : Type := List String → Option Node

/-- Point update of the filesystem. -/
def fsUpd (fs : FS) (p : List String) (n : Node) : FS :=
  fun q => if q = p then some n else fs q

/-- Downward walk of os.MkdirAll below an existing directory pre: each next
prefix that is missing is created as a directory; an existing non-directory
on the way is the error case and stops the walk (matching Go, which fails
before creating anything below such a node). -/
def mkdirAllFrom (fs : FS) (pre : List String) : List String → FS × Bool
  | [] => (fs, true)
  | c :: rest =>
    match fs (pre ++ [c]) with
    | some Node.dirN => mkdirAllFrom fs (pre ++ [c]) rest
    | some _ => (fs, false)
    | none => mkdirAllFrom (fsUpd fs (pre ++ [c]) Node.dirN) (pre ++ [c]) rest

/-- os.MkdirAll: the fast path succeeds if the full path already is a
directory and fails if it exists as something else; otherwise directories
are created downwards from the root (the root itself must exist as a
directory, which it always does below: extraction starts from a state
holding the destination directory and all its ancestors). -/
def mkdirAll (fs : FS) (p : List String) : FS × Bool :=
  match fs p with
  | some Node.dirN => (fs, true)
  | some _ => (fs, false)
  | none =>
    match fs [] with
    | some Node.dirN => mkdirAllFrom fs [] p
    | _ => (fs, false)

/-- tar header type flags used by the sources (TypeReg and TypeRegA are
merged, everything else is the skipped default case of ExtractArchive). -/
inductive TarType where
  | dir : TarType
  | reg : TarType
  | symlink : TarType
  | other : TarType
deriving DecidableEq, Repr

/-- A tar header as the sources consume it: entry name (raw components),
type flag, size and symlink target. -/
structure Header where
  name : List String
  typ : TarType
  size : Nat
  link : String
deriving DecidableEq, Repr

/-- Errors surfaced by the archive loops. -/
inductive XErr where
  | cancelled : XErr
  | traversal : XErr
  | ioErr : XErr
  | noSources : XErr
deriving DecidableEq, Repr

/-- One entry of the ExtractArchive switch (tar implementation, lines
247-281): resolve the name through secureJoin, then create a directory,
a symlink (os.Symlink fails if the path exists), or a regular file
(created or truncated; opening an existing directory fails).  Other entry
types are skipped. -/
def extractStep (baseDir : List String) (fs : FS) (h : Header) : FS × Option XErr :=
  match secureJoin baseDir h.name with
  | none => (fs, some XErr.traversal)
  | some p =>
    match h.typ with
    | TarType.dir =>
      let r := mkdirAll fs p.comps
      (r.1, if r.2 then none else some XErr.ioErr)
    | TarType.symlink =>
      let r := mkdirAll fs p.comps.dropLast
      if r.2 then
        match r.1 p.comps with
        | some _ => (r.1, some XErr.ioErr)
        | none => (fsUpd r.1 p.comps (Node.symlinkN h.link), none)
      else (r.1, some XErr.ioErr)
    | TarType.reg =>
      let r := mkdirAll fs p.comps.dropLast
      if r.2 then
        match r.1 p.comps with
        | some Node.dirN => (r.1, some XErr.ioErr)
        | _ => (fsUpd r.1 p.comps (Node.fileN h.size), none)
      else (r.1, some XErr.ioErr)
    | TarType.other => (fs, none)

/-- The ExtractArchive loop (tar implementation, lines 234-283): before each
tr.Next() the context is polled; cancel counts the remaining polls before
the context reports done (none = never cancelled).  Returns the final
filesystem and an error, none meaning success at EOF. -/
def extractC : Option Nat → List String → FS → List Header → FS × Option XErr
  | some 0, _, fs, _ => (fs, some XErr.cancelled)
  | _, _, fs, [] => (fs, none)
  | cancel, baseDir, fs, h :: t =>
    let r := extractStep baseDir fs h
    match r.2 with
    | some e => (r.1, some e)
    | none => extractC (cancel.map Nat.pred) baseDir r.1 t

/-- Boolean prefix test on component lists (kernel-evaluable). -/
def isPre : List String → List String → Bool
  | [], _ => true
  | _ :: _, [] => false
  | a :: as, b :: bs => a = b && isPre as bs

/-- ExtractArchive starts with os.MkdirAll(destDir): the initial filesystem
has the destination directory and all its ancestors present. -/
def initFS (baseDir : List String) : FS :=
  fun p => if isPre p (cleanPath baseDir).comps then some Node.dirN else none

/-- ExtractArchive(ctx, archive, destDir), with the archive given by its
header list. -/
def ExtractArchive (cancel : Option Nat) (baseDir : List String)
    (hdrs : List Header) : FS × Option XErr :=
  extractC cancel baseDir (initFS baseDir) hdrs

/-! Archive creation and listing (tar implementation, lines 103-215 and
286-322). -/

/-- Header written for one node visited by the WalkDir callback of
addSourceToTar: a directory gets its archive name plus a trailing slash
(a trailing empty component here); writeFileOrSymlinkToTar stores a regular
file with its size and a symlink with its link target.  The archive name is
filepath.Join(rootName, rel), i.e. the destination component followed by the
relative components. -/
def walkHeader (dest : String) (p : List String) (n : Node) : Header :=
  match n with
  | Node.dirN => ⟨dest :: p ++ [""], TarType.dir, 0, ""⟩
  | Node.fileN sz => ⟨dest :: p, TarType.reg, sz, ""⟩
  | Node.symlinkN t => ⟨dest :: p, TarType.symlink, 0, t⟩

/-- The headers emitted for a directory source: WalkDir visits the source
directory itself first (relative path ".", archive name dest + "/"), then
every entry of the tree.  WalkDir visits entries in lexical depth-first
order; the theorems below are stated at the level of path sets, which does
not depend on the visit order, so the tree is taken in its list order. -/
def dirHeaders (dest : String) (tree : List (List String × Node)) : List Header :=
  ⟨[dest, ""], TarType.dir, 0, ""⟩ :: tree.map (fun e => walkHeader dest e.1 e.2)

/-- One entry of the sources slice of CreateArchive, as the backup engine
builds it: a single regular file stored under an explicit DestPath, or a
directory with its content tree stored under an explicit DestPath.  The
engine always sets DestPath, so the base-name fallback of addSourceToTar is
not modelled. -/
inductive SourceSpec where
  | fileSrc : String → Nat → SourceSpec
  | dirSrc : String → List (List String × Node) → SourceSpec
deriving DecidableEq, Repr

/-- Result of emitting headers under a cancellation budget: the headers
written so far, the error if any, and the remaining budget. -/
structure EmitRes where
  hdrs : List Header
  err : Option XErr
  cancel : Option Nat
deriving DecidableEq, Repr

/-- The WalkDir callback checks the context before writing each node
(tar implementation, lines 150-154). -/
def walkC : Option Nat → List Header → EmitRes
  | c, [] => ⟨[], none, c⟩
  | some 0, _ :: _ => ⟨[], some XErr.cancelled, some 0⟩
  | c, h :: t =>
    let r := walkC (c.map Nat.pred) t
    ⟨h :: r.hdrs, r.err, r.cancel⟩

/-- The source loop of CreateArchive: addSourceToTar checks the context once
on entry (lines 132-136), then emits the single-file header, or runs the
checked walk for a directory source.  The first error aborts the loop,
keeping the headers already written in the output file. -/
def createC : Option Nat → List SourceSpec → EmitRes
  | c, [] => ⟨[], none, c⟩
  | some 0, _ :: _ => ⟨[], some XErr.cancelled, some 0⟩
  | c, s :: rest =>
    let r :=
      match s with
      | SourceSpec.fileSrc d sz => (⟨[⟨[d], TarType.reg, sz, ""⟩], none, c.map Nat.pred⟩ : EmitRes)
      | SourceSpec.dirSrc d tree => walkC (c.map Nat.pred) (dirHeaders d tree)
    match r.err with
    | some e => ⟨r.hdrs, some e, r.cancel⟩
    | none =>
      let r2 := createC r.cancel rest
      ⟨r.hdrs ++ r2.hdrs, r2.err, r2.cancel⟩

/-- Result of CreateArchive: whether os.Create(dest) ran (it truncates or
creates the output file before any source is read, line 111), the headers
that reached the output, and the error.  An error after os.Create leaves the
partial file in place: CreateArchive has no cleanup path. -/
structure CreateRes where
  fileCreated : Bool
  hdrs : List Header
  err : Option XErr
deriving DecidableEq, Repr

/-- CreateArchive(ctx, sources, dest) (tar implementation, lines 103-129):
empty sources fail before the output file is created; otherwise the file is
created first and the sources are streamed into it. -/
def CreateArchive (cancel : Option Nat) (sources : List SourceSpec) : CreateRes :=
  match sources with
  | [] => ⟨false, [], some XErr.noSources⟩
  | _ :: _ =>
    let r := createC cancel sources
    ⟨true, r.hdrs, r.err⟩

/-- ListArchive (tar implementation, lines 286-322): the loop polls the
context before each tr.Next(); on cancellation the function returns nil
entries and the error, discarding everything collected. -/
def listC : Option Nat → List Header → List Header × Option XErr
  | some 0, _ => ([], some XErr.cancelled)
  | _, [] => ([], none)
  | c, h :: t =>
    match listC (c.map Nat.pred) t with
    | (es, none) => (h :: es, none)
    | (_, some e) => ([], some e)

/-- ListArchive over the headers of an archive: the collected entries (nil
on any error, as in Go) and the error. -/
def ListArchive (cancel : Option Nat) (hdrs : List Header) : List Header × Option XErr :=
  listC cancel hdrs

/-! Backup engine: safeName and file naming (pkg/backup/engine.go,
lines 877-915). -/

/-- Boolean prefix test on character lists. -/
def isPreC : List Char → List Char → Bool
  | [], _ => true
  | _ :: _, [] => false
  | a :: as, b :: bs => a = b && isPreC as bs

/-- indexOf from engine.go (lines 902-915): first index where sub occurs in
s, by naive scan; Go returns -1 for no occurrence, modelled as none. -/
def indexOfAux (sub : List Char) : List Char → Option Nat
  | [] => none
  | c :: rest => if isPreC sub (c :: rest) then some 0 else (indexOfAux sub rest).map (· + 1)

/-- indexOf with the m = 0 fast path of the Go loop. -/
def indexOf (s sub : List Char) : Option Nat :=
  if sub.length = 0 then some 0 else indexOfAux sub s

/-- stringReplaceAll from engine.go (lines 892-900) replaces occurrences of
old until none is left.  The Go loop has no fuel; for the arguments safeName
uses (one character replaced by one dash) each step removes one occurrence,
so length + 1 steps always suffice — the fuelled recursion below is
extensionally the Go loop on those arguments. -/
def replaceAllFuel (old new : List Char) : Nat → List Char → List Char
  | 0, s => s
  | Nat.succ fuel, s =>
    match indexOf s old with
    | none => s
    | some idx => replaceAllFuel old new fuel (s.take idx ++ new ++ s.drop (idx + old.length))

/-- stringReplaceAll with the fuel instantiated. -/
def stringReplaceAll (s old new : List Char) : List Char :=
  replaceAllFuel old new (s.length + 1) s

/-- The characters safeName rewrites to a dash (engine.go, lines 883-885). -/
def safeNameBad : List Char := ['/', '\\', ' ', ':', '\t']

/-- safeName from engine.go (lines 877-890): the empty name becomes
"container"; otherwise path separators, spaces, colons and tabs are replaced
by dashes, one replacer entry after the other. -/
def safeName (name : String) : String :=
  if name = "" then "container"
  else String.mk (safeNameBad.foldl (fun s o => stringReplaceAll s [o] ['-']) name.data)

/-- Default output file name of a single-unit backup (engine.go, line 273). -/
def defaultOutputBase (containerName : String) : String :=
  safeName containerName ++ "_backup.tar.gz"

/-- Per-volume archive file name under volumes/ (engine.go, line 309). -/
def volumeArchiveFileName (volName : String) : String :=
  safeName volName ++ ".tar.gz"

/-- Per-bind-mount archive file name under volumes/ (engine.go, lines
319-321). -/
def bindArchiveFileName (sourceBase : String) : String :=
  "bind_" ++ safeName sourceBase ++ ".tar.gz"

/-- filepath.Base on the component representation: last component of the
cleaned path; "/" for the root of an absolute path and "." for an empty
relative path, as in Go. -/
def goBase (p : List String) : String :=
  match (cleanPath p).comps.getLast? with
  | some c => c
  | none => if (cleanPath p).abs then "/" else "."

/-! Backup engine: the single-unit Backup workflow (engine.go,
lines 253-411). -/

/-- A mount record as ParseContainerInfo delivers it to the Backup loop. -/
structure Mount where
  typ : String
  name : String
  source : List String
  destination : String
  rw : Bool
deriving DecidableEq, Repr

/-- Whether the mount loop of Backup (lines 305-328) archives this mount:
named volumes with a source path, and bind mounts with a source path. -/
def mountArchived (m : Mount) : Bool :=
  (m.typ = "volume" && !(m.name = "") && !(m.source = [])) ||
  (m.typ = "bind" && !(m.source = []))

/-- Content of the volumes/ scratch directory after the mount loop and the
volume-config capture (lines 300-344): one gzipped archive per archived
mount, named through safeName, plus volume_configs.json when at least one
named volume config was fetched.  Sizes are not tracked by the model. -/
def volumesTree (mounts : List Mount) (volCfgsNonEmpty : Bool) :
    List (List String × Node) :=
  (mounts.filterMap fun m =>
    if m.typ = "volume" && !(m.name = "") && !(m.source = []) then
      some ([volumeArchiveFileName m.name], Node.fileN 0)
    else if m.typ = "bind" && !(m.source = []) then
      some ([bindArchiveFileName (goBase m.source)], Node.fileN 0)
    else none)
  ++ (if volCfgsNonEmpty then [(["volume_configs.json"], Node.fileN 0)] else [])

/-- Content of the networks/ scratch directory (lines 346-367). -/
def networksTree (netCfgsNonEmpty : Bool) : List (List String × Node) :=
  if netCfgsNonEmpty then [(["network_configs.json"], Node.fileN 0)] else []

/-- The sources slice of the final CreateArchive call of Backup (lines
393-402): container.json, filesystem.tar, the volumes and networks scratch
directories, metadata.json, and image.tar when the image save produced a
file. -/
def backupSources (mounts : List Mount)
    (volCfgsNonEmpty netCfgsNonEmpty imageSaved : Bool) : List SourceSpec :=
  [SourceSpec.fileSrc "container.json" 0,
   SourceSpec.fileSrc "filesystem.tar" 0,
   SourceSpec.dirSrc "volumes" (volumesTree mounts volCfgsNonEmpty),
   SourceSpec.dirSrc "networks" (networksTree netCfgsNonEmpty),
   SourceSpec.fileSrc "metadata.json" 0]
  ++ (if imageSaved then [SourceSpec.fileSrc "image.tar" 0] else [])

/-- The entry names of the final backup archive, as ListArchive would report
them (no cancellation). -/
def backupEntryNames (mounts : List Mount)
    (volCfgsNonEmpty netCfgsNonEmpty imageSaved : Bool) : List (List String) :=
  (CreateArchive none
    (backupSources mounts volCfgsNonEmpty netCfgsNonEmpty imageSaved)).hdrs.map
    Header.name

/-- Failure injection for one run of the single-unit Backup workflow: which
adapter and filesystem steps succeed; volArchiveFailAt makes the n-th
per-mount CreateArchive call into the scratch directory fail (counting only
archived mounts, in order); finalCancel is the cancellation budget entering
the final CreateArchive call. -/
structure BackupWorld where
  containerIDNonEmpty : Bool
  inspectOk : Bool
  parseOk : Bool
  mkScratchOk : Bool
  writeContainerJSONOk : Bool
  exportOk : Bool
  mounts : List Mount
  volArchiveFailAt : Option Nat
  volCfgsNonEmpty : Bool
  netCfgsNonEmpty : Bool
  metadataWriteOk : Bool
  imageSaved : Bool
  finalCancel : Option Nat
deriving DecidableEq, Repr

/-- Observable outcome of one Backup run: success, whether the scratch
directory was created and removed, whether os.Create ran on the final output
path, and whether the final archive was completed. -/
structure BackupOutcome where
  ok : Bool
  scratchCreated : Bool
  scratchRemoved : Bool
  outputTouched : Bool
  outputComplete : Bool
deriving DecidableEq, Repr

/-- Number of per-mount CreateArchive calls the mount loop performs. -/
def mountArchiveCalls (mounts : List Mount) : Nat :=
  (mounts.filter mountArchived).length

/-- Tail of the single-unit Backup workflow: the metadata write (lines
369-384) and the final CreateArchive call at the resolved output path
(lines 391-408).  The image save (line 388) is best-effort and cannot fail
the run. -/
def BackupFinal (w : BackupWorld) : BackupOutcome :=
  if !w.metadataWriteOk then ⟨false, true, true, false, false⟩
  else
    let c := CreateArchive w.finalCancel
      (backupSources w.mounts w.volCfgsNonEmpty w.netCfgsNonEmpty w.imageSaved)
    ⟨c.err = none, true, true, c.fileCreated, c.fileCreated && c.err = none⟩

/-- The single-unit Backup workflow of engine.go (lines 253-411), with
failures injected by the world: validation and inspection precede the
scratch directory (lines 256-275); os.MkdirTemp creates it (line 278) and
the deferred os.RemoveAll removes it on every later return path (lines
282-284); container.json, the filesystem export and the per-mount archives
are written into the scratch directory (lines 286-344); the tail of the
workflow is BackupFinal. -/
def BackupRun (w : BackupWorld) : BackupOutcome :=
  if !w.containerIDNonEmpty then ⟨false, false, false, false, false⟩
  else if !w.inspectOk then ⟨false, false, false, false, false⟩
  else if !w.parseOk then ⟨false, false, false, false, false⟩
  else if !w.mkScratchOk then ⟨false, false, false, false, false⟩
  else if !w.writeContainerJSONOk then ⟨false, true, true, false, false⟩
  else if !w.exportOk then ⟨false, true, true, false, false⟩
  else
    match w.volArchiveFailAt with
    | some k =>
      if k < mountArchiveCalls w.mounts then ⟨false, true, true, false, false⟩
      else BackupFinal w
    | none => BackupFinal w

/-! Validate (engine.go, lines 840-875). -/

/-- The three required top-level entries of a single-unit backup. -/
def requiredNames : List String := ["container.json", "filesystem.tar", "metadata.json"]

/-- Space-separated join, the way fmt's %v renders a string slice between
brackets. -/
def joinSp : List String → String
  | [] => ""
  | [x] => x
  | x :: y :: t => x ++ " " ++ joinSp (y :: t)

/-- The required entries missing from an archive listing.  Go collects them
by iterating a map whose order is unspecified; the model fixes the
declaration order of the required set, and no property proved below depends
on that order. -/
def missingOf (entryPaths : List String) : List String :=
  requiredNames.filter (fun r => !(entryPaths.contains r))

/-- Result of Validate. -/
structure ValidationResult where
  valid : Bool
  details : String
deriving DecidableEq, Repr

/-- Validate: list the archive, mark the three required top-level names seen
among the entry paths, and report the missing ones; any other entry path is
ignored by the switch. -/
def Validate (entryPaths : List String) : ValidationResult :=
  let missing := missingOf entryPaths
  if missing.length > 0 then
    ⟨false, "missing required entries: [" ++ joinSp missing ++ "]"⟩
  else ⟨true, "backup structure is valid"⟩

/-! Restore: port-binding host-IP validation (engine.go, lines 663-686). -/

/-- One nat.PortBinding: host IP (empty = bind-all) and host port. -/
structure PortBinding where
  hostIP : String
  hostPort : String
deriving DecidableEq, Repr

/-- Clearing the host IP of a binding (b.HostIP = ""). -/
def clearHostIP (b : PortBinding) : PortBinding := ⟨"", b.hostPort⟩

/-- The inner loop over one port's bindings: an empty host IP, or any host
IP under DropHostIPs, is kept with the IP cleared; otherwise the binding is
kept unchanged when its IP is among the host's addresses and dropped when it
is not. -/
def filterBindingsOnePort (present : List String) (dropHostIPs : Bool)
    (bs : List PortBinding) : List PortBinding :=
  bs.filterMap fun b =>
    if b.hostIP = "" || dropHostIPs then some (clearHostIP b)
    else if present.contains b.hostIP then some b
    else none

/-- The outer loop over hostCfg.PortBindings (map iteration; the model keys
the map as an association list). -/
def filterPortBindings (present : List String) (dropHostIPs : Bool)
    (pb : List (String × List PortBinding)) : List (String × List PortBinding) :=
  pb.map fun e => (e.1, filterBindingsOnePort present dropHostIPs e.2)

/-! Restore: static-IP conflict handling (engine.go, lines 688-708 and
1000-1017). -/

/-- Bitwise and via fuelled binary recursion (32 bits cover IPv4), written
so that it evaluates inside the kernel. -/
def natAndFuel : Nat → Nat → Nat → Nat
  | 0, _, _ => 0
  | Nat.succ f, a, b =>
    if a = 0 || b = 0 then 0
    else (a % 2) * (b % 2) + 2 * natAndFuel f (a / 2) (b / 2)

/-- 32-bit bitwise and. -/
def natAnd32 (a b : Nat) : Nat := natAndFuel 32 a b

/-- One host interface IPv4 network: address and mask as 32-bit values. -/
structure IPNet where
  base : Nat
  mask : Nat
deriving DecidableEq, Repr

/-- net.IPNet.Contains: mask both addresses and compare. -/
def ipnetContains (n : IPNet) (ip : Nat) : Bool :=
  natAnd32 ip n.mask = natAnd32 n.base n.mask

/-- Split a character list on dots. -/
def splitOnDot : List Char → List (List Char)
  | [] => [[]]
  | c :: rest =>
    match splitOnDot rest with
    | [] => [[]]
    | g :: gs => if c = '.' then [] :: g :: gs else (c :: g) :: gs

/-- Decimal value of a digit run; none on a non-digit. -/
def digitsVal (t : List Char) : Option Nat :=
  t.foldl
    (fun acc c =>
      match acc with
      | none => none
      | some v => if c.isDigit then some (v * 10 + (c.toNat - '0'.toNat)) else none)
    (some 0)

/-- One dotted-quad octet as net.ParseIP accepts it: nonempty, digits only,
no leading zero, at most 255. -/
def octetVal (t : List Char) : Option Nat :=
  match t with
  | [] => none
  | c :: rest =>
    if c = '0' && !(rest = []) then none
    else
      match digitsVal (c :: rest) with
      | none => none
      | some v => if v ≤ 255 then some v else none

/-- net.ParseIP(addr).To4() as a 32-bit value: exactly four in-range octets;
anything else (including IPv6 forms) yields none, which
conflictWithHostIPv4 treats as no conflict. -/
def parseIPv4 (s : String) : Option Nat :=
  match splitOnDot s.data with
  | [a, b, c, d] =>
    match octetVal a, octetVal b, octetVal c, octetVal d with
    | some x, some y, some z, some w => some (((x * 256 + y) * 256 + z) * 256 + w)
    | _, _, _, _ => none
  | _ => none

/-- conflictWithHostIPv4 (engine.go, lines 1000-1017): an unparseable or
non-IPv4 address is no conflict; otherwise the address conflicts when any
host interface IPv4 network contains it.  The host networks are the To4
interface addresses that Go's loop inspects. -/
def conflictWithHostIPv4 (hostNets : List IPNet) (addr : String) : Bool :=
  match parseIPv4 addr with
  | none => false
  | some ip => hostNets.any fun n => ipnetContains n ip

/-- One network attachment from cj.NetworkSettings.Networks: network name
and the fixed IPv4 address of its IPAMConfig (none models a nil IPAMConfig;
the model keeps only the IPv4 field the loop reads). -/
structure EndpointIn where
  name : String
  ipamIPv4 : Option String
deriving DecidableEq, Repr

/-- The per-attachment conflict test of the loop (lines 695-700). -/
def endpointConflict (hostNets : List IPNet) (e : EndpointIn) : Bool :=
  match e.ipamIPv4 with
  | none => false
  | some a => if a = "" then false else conflictWithHostIPv4 hostNets a

/-- The NetworkingConfig loop of Restore (lines 688-708): the
conflictingStaticIP flag is declared outside the loop and never reset, so a
conflict on one attachment stays set for all attachments processed after it.
Go iterates the networks map in unspecified order; the model processes the
given list order.  The result records, per network name, the IPAMConfig kept
in the creation spec (none = dropped or originally nil). -/
def processEndpoints (reassign autoRelax : Bool) (hostNets : List IPNet)
    (flag : Bool) : List EndpointIn → List (String × Option String)
  | [] => []
  | e :: rest =>
    let flag2 := flag || endpointConflict hostNets e
    let kept := if reassign || (autoRelax && flag2) then none else e.ipamIPv4
    (e.name, kept) :: processEndpoints reassign autoRelax hostNets flag2 rest

/-! Order resolver (pkg/compose/order.go). -/

/-- Lexicographic comparison on character lists (byte-wise on ASCII service
names, as sort.Strings compares). -/
def lexLeB : List Char → List Char → Bool
  | [], _ => true
  | _ :: _, [] => false
  | a :: as, b :: bs => if a = b then lexLeB as bs else decide (a < b)

/-- String comparison for sort.Strings. -/
def strLeB (a b : String) : Bool := lexLeB a.data b.data

/-- Insertion step of the model's sort. -/
def insertSorted (x : String) : List String → List String
  | [] => [x]
  | y :: ys => if strLeB x y then x :: y :: ys else y :: insertSorted x ys

/-- sort.Strings: any correct ascending sort; insertion sort keeps the model
kernel-evaluable. -/
def sortStrings (l : List String) : List String := l.foldr insertSorted []

/-- A parsed compose service graph: service name with its depends_on keys.
The YAML parsing itself is not modelled; OrderFromComposeYAML receives this
map. -/
def gnames (g : List (String × List String)) : List String := g.map Prod.fst

/-- The dependency edges (dep, service): service depends on dep. -/
def gedges (g : List (String × List String)) : List (String × String) :=
  g.flatMap fun p => p.2.map fun d => (d, p.1)

/-- The in-degree map after the build loop of OrderFromComposeYAML (lines
29-37): every declared service starts at zero and gains one per declared
dependency, including dangling dependencies on undeclared names. -/
def initIndeg (g : List (String × List String)) (x : String) : Int :=
  ((gedges g).filter (fun e => e.2 = x)).length

/-- The adjacency map: services depending on x.  Go builds it iterating a
map in unspecified order; the result of the resolver does not depend on this
order because the ready queue is fully re-sorted after every insertion, so
the model fixes declaration order. -/
def adjOf (g : List (String × List String)) (x : String) : List String :=
  (gedges g).filterMap fun e => if e.1 = x then some e.2 else none

/-- Mutable in-degree map of the run. -/
def indegUpd (f : String → Int) (x : String) (v : Int) : String → Int :=
  fun y => if y = x then v else f y

/-- Neighbour processing of one popped node (lines 50-56): decrement each
neighbour; a neighbour reaching exactly zero is appended to the ready queue,
which is then re-sorted. -/
def processNbrs (f : String → Int) (q : List String) :
    List String → (String → Int) × List String
  | [] => (f, q)
  | nb :: rest =>
    let d := f nb - 1
    let f2 := indegUpd f nb d
    let q2 := if d = 0 then sortStrings (q ++ [nb]) else q
    processNbrs f2 q2 rest

/-- Kahn's loop (lines 46-57): pop the least ready name, append it to the
order, process its neighbours.  The Go loop runs until the queue drains; the
fuel dominates the number of pops (each name enters the queue at most once,
proved below), so the fuelled recursion is the Go loop. -/
def kahnLoop (adj : String → List String) :
    Nat → (String → Int) → List String → List String → List String
  | 0, _, _, order => order
  | Nat.succ fuel, f, q, order =>
    match q with
    | [] => order
    | cur :: qrest =>
      let r := processNbrs f qrest (adj cur)
      kahnLoop adj fuel r.1 r.2 (order ++ [cur])

/-- The raw Kahn order: seed the queue with the zero-in-degree services,
sorted (lines 39-45), and run the loop. -/
def kahnOrder (g : List (String × List String)) : List String :=
  let f := initIndeg g
  let q := sortStrings ((gnames g).filter (fun n => f n == 0))
  kahnLoop (adjOf g) ((gnames g).length + 1) f q []

/-- OrderFromComposeYAML on the parsed graph (lines 18-65): the Kahn order
when it covers every declared service, the lexicographically sorted name
list otherwise (cycle or dangling dependency). -/
def orderFromComposeGraph (g : List (String × List String)) : List String :=
  let order := kahnOrder g
  if order.length ≠ (gnames g).length then sortStrings (gnames g) else order

/-- The headers one source contributes when nothing is cancelled. -/
def sourceHeaders : SourceSpec → List Header
  | SourceSpec.fileSrc d sz => [⟨[d], TarType.reg, sz, ""⟩]
  | SourceSpec.dirSrc d tree => dirHeaders d tree

/-- All headers of an uncancelled CreateArchive run. -/
def fullCreateHeaders (ss : List SourceSpec) : List Header :=
  ss.flatMap sourceHeaders

/-- Number of context polls one source performs: one on entry of
addSourceToTar, plus one per walked node for a directory source. -/
def sourceChecks : SourceSpec → Nat
  | SourceSpec.fileSrc _ _ => 1
  | SourceSpec.dirSrc _ tree => 1 + (1 + tree.length)

/-- Total context polls of a CreateArchive run. -/
def totalChecks (ss : List SourceSpec) : Nat :=
  (ss.map sourceChecks).sum

/-! Round-trip support: well-formed source trees in WalkDir visit order, and
the filesystem the specification's round-trip equation Extract(Create(S)) == S
describes. -/

/-- A usable path component of a source tree: filepath.WalkDir never reports
"", "." or ".." as the relative name of a visited entry. -/
def validComp (c : String) : Bool :=
  !(c == "") && !(c == ".") && !(c == "..")

/-- Whether a path already occurs as the path of one of the listed
entries. -/
def keyIn (tree : List (List String × Node)) (p : List String) : Bool :=
  tree.any (fun e => e.1 == p)

/-- Every proper non-empty prefix of p occurs as a directory among the
entries already visited: WalkDir lists a directory before its content. -/
def parentsIn (done : List (List String × Node)) (p : List String) : Bool :=
  (List.range p.length).all (fun k => (k == 0) || decide ((p.take k, Node.dirN) ∈ done))

/-- A well-formed source tree in WalkDir visit order, checked entry by entry
against the part already visited: non-empty path of usable components,
parent directories visited first, no duplicate paths. -/
def treeWF (done : List (List String × Node)) : List (List String × Node) → Bool
  | [] => true
  | e :: rest =>
    !(e.1.isEmpty) && e.1.all validComp && parentsIn done e.1 && !(keyIn done e.1)
      && treeWF (done ++ [e]) rest

/-- Strip a prefix from a path: the remainder, if the first list is a prefix
of the second. -/
def dropPre : List String → List String → Option (List String)
  | [], q => some q
  | _ :: _, [] => none
  | a :: as, b :: bs => if a = b then dropPre as bs else none

/-- The node stored for a path by the tree (first match). -/
def lookupKey (tree : List (List String × Node)) (p : List String) : Option Node :=
  match tree.find? (fun e => e.1 == p) with
  | some e => some e.2
  | none => none

/-- The filesystem the round-trip sentence of the specification describes
for a directory source archived as dest and extracted into baseDir: the
destination directory and its ancestors exist as directories, the archived
directory sits at baseDir/dest, below it stand exactly the entries of the
source tree with their nodes (directory, regular file with its size, symlink
with its target), and nothing else exists. -/
def expectedFS (baseDir : List String) (dest : String)
    (tree : List (List String × Node)) : FS :=
  fun q =>
    if isPre q (cleanPath baseDir).comps then some Node.dirN
    else if q = (cleanPath baseDir).comps ++ [dest] then some Node.dirN
    else match dropPre ((cleanPath baseDir).comps ++ [dest]) q with
      | some p => lookupKey tree p
      | none => none

/-- A concrete source tree with a nested directory chain, an empty
directory, a regular file and a symlink, used to instantiate the round-trip
theorem. -/
def rtTree : List (List String × Node) :=
  [(["d1"], Node.dirN), (["d1", "d2"], Node.dirN), (["d1", "d2", "f"], Node.fileN 7),
   (["empty"], Node.dirN), (["ln"], Node.symlinkN "d1/d2/f")]

/-! Theorems and supporting lemmas. -/

example : secureJoin ["tmp", "dest"] ["..", "..", "etc", "passwd"] = none := by decide
example : secureJoin ["tmp", "dest"] ["a", "b"] = some ⟨false, ["tmp", "dest", "a", "b"]⟩ := by decide
example : secureJoin ["", "tmp", "dest"] ["sample", ""] = some ⟨true, ["tmp", "dest", "sample"]⟩ := by decide
example : secureJoin ["tmp"] ["..x"] = none := by decide
example : secureJoin ["tmp"] ["a", "..", "b"] = some ⟨false, ["tmp", "b"]⟩ := by decide
example : secureJoin ["tmp"] ["", "etc", "passwd"] = some ⟨false, ["tmp", "etc", "passwd"]⟩ := by decide
example : (ExtractArchive none ["d"] [⟨["f"], TarType.reg, 3, ""⟩]).1 ["d", "f"] = some (Node.fileN 3) := by decide
example : (ExtractArchive none ["d"] [⟨["f"], TarType.reg, 3, ""⟩]).2 = none := by decide
example : (ExtractArchive none ["d"] [⟨["..", "x"], TarType.reg, 3, ""⟩]).2 = some XErr.traversal := by decide
example : (ExtractArchive (some 1) ["d"] [⟨["f"], TarType.reg, 3, ""⟩, ⟨["g"], TarType.reg, 1, ""⟩]).2 = some XErr.cancelled := by decide
example : (ExtractArchive (some 1) ["d"] [⟨["f"], TarType.reg, 3, ""⟩, ⟨["g"], TarType.reg, 1, ""⟩]).1 ["d", "g"] = none := by decide
example : (ExtractArchive none ["d"] [⟨["a", ""], TarType.dir, 0, ""⟩]).1 ["d", "a"] = some Node.dirN := by decide

example : orderFromComposeGraph [("A", []), ("B", ["A"]), ("C", ["B"])] = ["A", "B", "C"] := by decide
example : orderFromComposeGraph [("A", ["B"]), ("B", ["A"])] = ["A", "B"] := by decide
example : orderFromComposeGraph [("B", []), ("A", ["X"])] = ["A", "B"] := by decide
example : kahnOrder [("A", []), ("B", ["A"]), ("C", ["B"])] = ["A", "B", "C"] := by decide
example : safeName "" = "container" := by decide
example : safeName "/unit test:x" = "-unit-test-x" := by decide
example : parseIPv4 "172.17.0.5" = some 2886795269 := by decide
example : parseIPv4 "10.9.9.9" = some 168364297 := by decide
example : parseIPv4 "01.2.3.4" = none := by decide
example : parseIPv4 "::1" = none := by decide
example : conflictWithHostIPv4 [⟨2886795264, 4294901760⟩] "172.17.0.5" = true := by decide
example : conflictWithHostIPv4 [⟨2886795264, 4294901760⟩] "10.9.9.9" = false := by decide
example : (Validate ["container.json", "filesystem.tar"]).valid = false := by decide
example : (Validate ["container.json", "filesystem.tar"]).details = "missing required entries: [metadata.json]" := by decide
example : (Validate ["container.json", "filesystem.tar", "metadata.json"]).valid = true := by decide
example : backupEntryNames [] false false false =
    [["container.json"], ["filesystem.tar"], ["volumes", ""], ["networks", ""], ["metadata.json"]] := by decide
example : (BackupRun ⟨true, true, true, true, true, true, [], none, false, false, true, false, some 1⟩) =
    ⟨false, true, true, true, false⟩ := by decide
example : processEndpoints false true [⟨2886795264, 4294901760⟩] false
    [⟨"n1", some "172.17.0.5"⟩, ⟨"n2", some "10.9.9.9"⟩] = [("n1", none), ("n2", none)] := by decide
example : (ListArchive (some 1) [⟨["a"], TarType.reg, 1, ""⟩, ⟨["b"], TarType.reg, 1, ""⟩]) = ([], some XErr.cancelled) := by decide
example : (CreateArchive (some 1) [SourceSpec.fileSrc "container.json" 0, SourceSpec.fileSrc "filesystem.tar" 0]).hdrs = [⟨["container.json"], TarType.reg, 0, ""⟩] := by decide
example : (CreateArchive (some 2) [SourceSpec.fileSrc "container.json" 0, SourceSpec.fileSrc "filesystem.tar" 0]).err = none := by decide

theorem isPre_iff (a b : List String) : isPre a b = true ↔ a <+: b := by
  induction a generalizing b with
  | nil => simp [isPre]
  | cons x xs ih =>
    cases b with
    | nil => simp [isPre]
    | cons y ys =>
      simp only [isPre, Bool.and_eq_true, decide_eq_true_eq, List.cons_prefix_cons]
      exact and_congr Iff.rfl (ih ys)

theorem relGo_out (b : List String) : ∀ (t r : List String), relGo b t = some r →
    headHasDotDot r = false → b <+: t := by
  induction b with
  | nil => intro t r _ _; exact List.nil_prefix
  | cons x bs ih =>
    intro t r hr hh
    cases t with
    | nil =>
      by_cases hx : x = ".."
      · simp [relGo, hx] at hr
      · simp [relGo, hx] at hr
        rw [← hr, List.replicate_succ] at hh
        simp [headHasDotDot, startsDotDot] at hh
    | cons y ts =>
      by_cases hxy : x = y
      · subst hxy
        simp [relGo] at hr
        exact List.cons_prefix_cons.mpr ⟨rfl, ih ts r hr hh⟩
      · by_cases hx : x = ".."
        · simp [relGo, hx] at hr
          exact absurd (hx.trans hr.1) hxy
        · simp [relGo, hxy, hx] at hr
          rw [← hr, List.replicate_succ] at hh
          simp [headHasDotDot, startsDotDot] at hh

theorem secureJoin_prefix (b name : List String) (p : CPath) (h : secureJoin b name = some p) :
    (cleanPath b).comps <+: p.comps := by
  unfold secureJoin at h
  by_cases hdot : (cleanPath (trimOneSlash name)).abs = false ∧ (cleanPath (trimOneSlash name)).comps = []
  · rw [if_pos hdot] at h
    rw [← Option.some.inj h]
  · rw [if_neg hdot] at h
    dsimp only at h
    cases hrel : relPath (cleanPath b) (joinCleaned (cleanPath b) (cleanPath (trimOneSlash name))) with
    | none => rw [hrel] at h; exact absurd h (by simp)
    | some rel =>
      rw [hrel] at h
      by_cases hh : headHasDotDot rel = true
      · simp [hh] at h
      · simp only [Bool.not_eq_true] at hh
        simp only [hh, Bool.false_eq_true, if_false, Option.some.injEq] at h
        rw [← h]
        unfold relPath at hrel
        simp only [joinCleaned, if_pos rfl] at hrel
        exact relGo_out _ _ _ hrel hh

theorem mkdirAllFrom_sub (rest : List String) : ∀ (fs : FS) (pre q : List String),
    (mkdirAllFrom fs pre rest).1 q ≠ fs q →
    fs q = none ∧ (mkdirAllFrom fs pre rest).1 q = some Node.dirN ∧
      ∃ l, l ≠ [] ∧ l <+: rest ∧ q = pre ++ l := by
  induction rest with
  | nil => intro fs pre q h; simp [mkdirAllFrom] at h
  | cons c rest ih =>
    intro fs pre q h
    unfold mkdirAllFrom at h ⊢
    cases hc : fs (pre ++ [c]) with
    | some n =>
      cases n with
      | dirN =>
        simp only [hc] at h ⊢
        obtain ⟨h1, h2, l, hl, hlp, hq⟩ := ih fs (pre ++ [c]) q h
        exact ⟨h1, h2, c :: l, by simp, List.cons_prefix_cons.mpr ⟨rfl, hlp⟩, by simp [hq]⟩
      | fileN sz => simp only [hc] at h; exact absurd rfl h
      | symlinkN t => simp only [hc] at h; exact absurd rfl h
    | none =>
      simp only [hc] at h ⊢
      by_cases hq : q = pre ++ [c]
      · subst hq
        refine ⟨hc, ?_, [c], by simp, List.cons_prefix_cons.mpr ⟨rfl, List.nil_prefix⟩, rfl⟩
        by_cases h2 : (mkdirAllFrom (fsUpd fs (pre ++ [c]) Node.dirN) (pre ++ [c]) rest).1 (pre ++ [c]) =
            fsUpd fs (pre ++ [c]) Node.dirN (pre ++ [c])
        · rw [h2]; simp [fsUpd]
        · exact (ih _ _ _ h2).2.1
      · have hup : fsUpd fs (pre ++ [c]) Node.dirN q = fs q := by simp [fsUpd, hq]
        by_cases h2 : (mkdirAllFrom (fsUpd fs (pre ++ [c]) Node.dirN) (pre ++ [c]) rest).1 q =
            fsUpd fs (pre ++ [c]) Node.dirN q
        · rw [h2, hup] at h; exact absurd rfl h
        · obtain ⟨h1, h3, l, hl, hlp, hq2⟩ := ih _ _ _ h2
          rw [hup] at h1
          exact ⟨h1, h3, c :: l, by simp, List.cons_prefix_cons.mpr ⟨rfl, hlp⟩, by simp [hq2]⟩

theorem mkdirAll_sub (fs : FS) (p q : List String) (h : (mkdirAll fs p).1 q ≠ fs q) :
    fs q = none ∧ (mkdirAll fs p).1 q = some Node.dirN ∧ q ≠ [] ∧ q <+: p := by
  unfold mkdirAll at h ⊢
  cases hp : fs p with
  | some n =>
    cases n <;> simp only [hp] at h <;> exact absurd rfl h
  | none =>
    simp only [hp] at h ⊢
    cases hr : fs [] with
    | some n =>
      cases n with
      | dirN =>
        simp only [hr] at h ⊢
        obtain ⟨h1, h2, l, hl, hlp, hq⟩ := mkdirAllFrom_sub p fs [] q h
        simp only [List.nil_append] at hq
        subst hq
        exact ⟨h1, h2, hl, hlp⟩
      | fileN sz => simp only [hr] at h; exact absurd rfl h
      | symlinkN t => simp only [hr] at h; exact absurd rfl h
    | none => simp only [hr] at h; exact absurd rfl h

theorem mkdirAll_inv (base : List String) (fs : FS) (t : List String)
    (hJ : ∀ q, q <+: (cleanPath base).comps → fs q = some Node.dirN)
    (hD : ∀ q, fs q ≠ initFS base q →
      ((cleanPath base).comps <+: q ∧ q ≠ (cleanPath base).comps))
    (ht : (cleanPath base).comps <+: t ∨ t <+: (cleanPath base).comps) :
    (∀ q, q <+: (cleanPath base).comps → (mkdirAll fs t).1 q = some Node.dirN)
    ∧ (∀ q, (mkdirAll fs t).1 q ≠ initFS base q →
        ((cleanPath base).comps <+: q ∧ q ≠ (cleanPath base).comps)) := by
  constructor
  · intro q hq
    by_cases hc : (mkdirAll fs t).1 q = fs q
    · rw [hc]; exact hJ q hq
    · exact absurd (hJ q hq) (by rw [(mkdirAll_sub fs t q hc).1]; simp)
  · intro q hc
    by_cases he : (mkdirAll fs t).1 q = fs q
    · rw [he] at hc; exact hD q hc
    · obtain ⟨h1, _, _, hqt⟩ := mkdirAll_sub fs t q he
      have hnq : ¬ q <+: (cleanPath base).comps := by
        intro hqb
        rw [hJ q hqb] at h1
        exact Option.noConfusion h1
      cases ht with
      | inl hbt =>
        have hlen : (cleanPath base).comps.length ≤ q.length := by
          by_contra hlt
          exact hnq (List.prefix_of_prefix_length_le hqt hbt (by omega))
        refine ⟨List.prefix_of_prefix_length_le hbt hqt hlen, ?_⟩
        intro hqe
        exact hnq (hqe ▸ List.prefix_refl _)
      | inr htb => exact absurd (hqt.trans htb) hnq

theorem extractStep_inv (base : List String) (fs : FS) (hd : Header)
    (hJ : ∀ q, q <+: (cleanPath base).comps → fs q = some Node.dirN)
    (hD : ∀ q, fs q ≠ initFS base q →
      ((cleanPath base).comps <+: q ∧ q ≠ (cleanPath base).comps)) :
    (∀ q, q <+: (cleanPath base).comps → (extractStep base fs hd).1 q = some Node.dirN)
    ∧ (∀ q, (extractStep base fs hd).1 q ≠ initFS base q →
        ((cleanPath base).comps <+: q ∧ q ≠ (cleanPath base).comps))
    ∧ ((extractStep base fs hd).2 = none → (secureJoin base hd.name).isSome)
    ∧ (secureJoin base hd.name = none → (extractStep base fs hd).2 = some XErr.traversal) := by
  unfold extractStep
  cases hsj : secureJoin base hd.name with
  | none =>
    exact ⟨hJ, hD, by simp, fun _ => rfl⟩
  | some p =>
    have hbp : (cleanPath base).comps <+: p.comps := secureJoin_prefix base hd.name p hsj
    have hsome : (secureJoin base hd.name).isSome := by rw [hsj]; rfl
    have hvac : secureJoin base hd.name = none →
        (extractStep base fs hd).2 = some XErr.traversal := by
      intro hn
      exact Option.noConfusion (hsj.symm.trans hn)
    cases htyp : hd.typ with
    | dir =>
      obtain ⟨hJ', hD'⟩ := mkdirAll_inv base fs p.comps hJ hD (Or.inl hbp)
      exact ⟨hJ', hD', fun _ => rfl, by simp⟩
    | symlink =>
      have hdp : p.comps.dropLast <+: p.comps := List.dropLast_prefix _
      have ht' : (cleanPath base).comps <+: p.comps.dropLast ∨
          p.comps.dropLast <+: (cleanPath base).comps := by
        rcases le_or_lt (cleanPath base).comps.length p.comps.dropLast.length with hle | hlt
        · exact Or.inl (List.prefix_of_prefix_length_le hbp hdp hle)
        · exact Or.inr (List.prefix_of_prefix_length_le hdp hbp (le_of_lt hlt))
      obtain ⟨hJ', hD'⟩ := mkdirAll_inv base fs p.comps.dropLast hJ hD ht'
      cases hr2 : (mkdirAll fs p.comps.dropLast).2 with
      | false =>
        simp only [hr2, Bool.false_eq_true, if_false]
        exact ⟨hJ', hD', by simp, by simp⟩
      | true =>
        simp only [hr2, if_true]
        cases hv : (mkdirAll fs p.comps.dropLast).1 p.comps with
        | some n =>
          exact ⟨hJ', hD', by simp, by simp⟩
        | none =>
          have hpb : p.comps ≠ (cleanPath base).comps := by
            intro he
            have hh := hJ' (cleanPath base).comps (List.prefix_refl _)
            rw [← he, hv] at hh
            exact Option.noConfusion hh
          refine ⟨?_, ?_, fun _ => rfl, by simp⟩
          · intro q hq
            have hne : q ≠ p.comps := by
              intro he
              have hh := hJ' q hq
              rw [he, hv] at hh
              exact Option.noConfusion hh
            simpa [fsUpd, hne] using hJ' q hq
          · intro q hc
            by_cases hqe : q = p.comps
            · exact ⟨hqe ▸ hbp, hqe ▸ hpb⟩
            · simp only [fsUpd, hqe, if_false] at hc
              exact hD' q hc
    | reg =>
      have hdp : p.comps.dropLast <+: p.comps := List.dropLast_prefix _
      have ht' : (cleanPath base).comps <+: p.comps.dropLast ∨
          p.comps.dropLast <+: (cleanPath base).comps := by
        rcases le_or_lt (cleanPath base).comps.length p.comps.dropLast.length with hle | hlt
        · exact Or.inl (List.prefix_of_prefix_length_le hbp hdp hle)
        · exact Or.inr (List.prefix_of_prefix_length_le hdp hbp (le_of_lt hlt))
      obtain ⟨hJ', hD'⟩ := mkdirAll_inv base fs p.comps.dropLast hJ hD ht'
      cases hr2 : (mkdirAll fs p.comps.dropLast).2 with
      | false =>
        simp only [hr2, Bool.false_eq_true, if_false]
        exact ⟨hJ', hD', by simp, by simp⟩
      | true =>
        simp only [hr2, if_true]
        have hkey : ∀ (hv : (mkdirAll fs p.comps.dropLast).1 p.comps ≠ some Node.dirN),
            (∀ q, q <+: (cleanPath base).comps →
              fsUpd (mkdirAll fs p.comps.dropLast).1 p.comps (Node.fileN hd.size) q = some Node.dirN)
            ∧ (∀ q, fsUpd (mkdirAll fs p.comps.dropLast).1 p.comps (Node.fileN hd.size) q ≠ initFS base q →
                ((cleanPath base).comps <+: q ∧ q ≠ (cleanPath base).comps)) := by
          intro hv
          have hpb : p.comps ≠ (cleanPath base).comps := by
            intro he
            refine hv ?_
            have hh := hJ' (cleanPath base).comps (List.prefix_refl _)
            rw [← he] at hh
            exact hh
          constructor
          · intro q hq
            have hne : q ≠ p.comps := by
              intro he
              exact hv (he ▸ hJ' q hq)
            simpa [fsUpd, hne] using hJ' q hq
          · intro q hc
            by_cases hqe : q = p.comps
            · exact ⟨hqe ▸ hbp, hqe ▸ hpb⟩
            · simp only [fsUpd, hqe, if_false] at hc
              exact hD' q hc
        cases hv : (mkdirAll fs p.comps.dropLast).1 p.comps with
        | some n =>
          cases n with
          | dirN => exact ⟨hJ', hD', by simp, by simp⟩
          | fileN sz =>
            obtain ⟨h1, h2⟩ := hkey (by rw [hv]; simp)
            exact ⟨h1, h2, fun _ => rfl, by simp⟩
          | symlinkN t =>
            obtain ⟨h1, h2⟩ := hkey (by rw [hv]; simp)
            exact ⟨h1, h2, fun _ => rfl, by simp⟩
        | none =>
          obtain ⟨h1, h2⟩ := hkey (by rw [hv]; simp)
          exact ⟨h1, h2, fun _ => rfl, by simp⟩
    | other =>
      exact ⟨hJ, hD, fun _ => rfl, by simp⟩

theorem extractC_inv (base : List String) : ∀ (hdrs : List Header) (cancel : Option Nat) (fs : FS),
    (∀ q, q <+: (cleanPath base).comps → fs q = some Node.dirN) →
    (∀ q, fs q ≠ initFS base q → ((cleanPath base).comps <+: q ∧ q ≠ (cleanPath base).comps)) →
    (∀ q, q <+: (cleanPath base).comps → (extractC cancel base fs hdrs).1 q = some Node.dirN)
    ∧ (∀ q, (extractC cancel base fs hdrs).1 q ≠ initFS base q →
        ((cleanPath base).comps <+: q ∧ q ≠ (cleanPath base).comps))
    ∧ ((extractC cancel base fs hdrs).2 = none → ∀ hh ∈ hdrs, (secureJoin base hh.name).isSome)
    ∧ (cancel = none → (∃ hh ∈ hdrs, secureJoin base hh.name = none) →
        (extractC cancel base fs hdrs).2 ≠ none) := by
  intro hdrs
  induction hdrs with
  | nil =>
    intro cancel fs hJ hD
    rcases cancel with _ | n
    · exact ⟨hJ, hD, by simp, by simp⟩
    · rcases n with _ | n
      · exact ⟨hJ, hD, by simp [extractC], by simp⟩
      · exact ⟨hJ, hD, by simp, by simp⟩
  | cons h t ih =>
    intro cancel fs hJ hD
    obtain ⟨sJ, sD, sOk, sTrav⟩ := extractStep_inv base fs h hJ hD
    rcases cancel with _ | n
    · cases hse : (extractStep base fs h).2 with
      | some e =>
        have hred : extractC none base fs (h :: t) = ((extractStep base fs h).1, some e) := by
          simp only [extractC, hse]
        rw [hred]
        exact ⟨sJ, sD, by simp, by simp⟩
      | none =>
        have hred : extractC none base fs (h :: t) =
            extractC none base (extractStep base fs h).1 t := by
          simp only [extractC, hse]
          rfl
        rw [hred]
        obtain ⟨iJ, iD, iOk, iTr⟩ := ih none (extractStep base fs h).1 sJ sD
        refine ⟨iJ, iD, ?_, ?_⟩
        · intro hnone hh hmem
          rcases List.mem_cons.mp hmem with he | hmem2
          · exact he ▸ sOk hse
          · exact iOk hnone hh hmem2
        · intro _ hex
          rcases hex with ⟨hh, hmem, hn⟩
          rcases List.mem_cons.mp hmem with he | hmem2
          · have := sTrav (he ▸ hn)
            rw [hse] at this
            exact absurd this (by simp)
          · exact iTr rfl ⟨hh, hmem2, hn⟩
    · rcases n with _ | n
      · have hred : extractC (some 0) base fs (h :: t) = (fs, some XErr.cancelled) := rfl
        rw [hred]
        exact ⟨hJ, hD, by simp, by simp⟩
      · cases hse : (extractStep base fs h).2 with
        | some e =>
          have hred : extractC (some (n + 1)) base fs (h :: t) =
              ((extractStep base fs h).1, some e) := by
            simp only [extractC, hse]
          rw [hred]
          exact ⟨sJ, sD, by simp, by simp⟩
        | none =>
          have hred : extractC (some (n + 1)) base fs (h :: t) =
              extractC (some n) base (extractStep base fs h).1 t := by
            simp only [extractC, hse]
            rfl
          rw [hred]
          obtain ⟨iJ, iD, iOk, iTr⟩ := ih (some n) (extractStep base fs h).1 sJ sD
          refine ⟨iJ, iD, ?_, by simp⟩
          intro hnone hh hmem
          rcases List.mem_cons.mp hmem with he | hmem2
          · exact he ▸ sOk hse
          · exact iOk hnone hh hmem2

/-- C1: every change ExtractArchive makes to the filesystem is at a path
strictly inside the destination directory; an archive that extracts
successfully contained no entry whose normalized name resolves outside the
destination; if any entry's name resolves outside (secureJoin rejects it),
the extraction as a whole fails; and on the spec's example entry
../../etc/passwd the failure is the path-traversal error itself. -/
theorem c1_extract_path_traversal :
    ∀ (baseDir : List String) (hdrs : List Header) (cancel : Option Nat),
    (∀ q, (ExtractArchive cancel baseDir hdrs).1 q ≠ initFS baseDir q →
        ((cleanPath baseDir).comps <+: q ∧ q ≠ (cleanPath baseDir).comps))
    ∧ ((ExtractArchive cancel baseDir hdrs).2 = none →
        ∀ hh ∈ hdrs, (secureJoin baseDir hh.name).isSome)
    ∧ (cancel = none → (∃ hh ∈ hdrs, secureJoin baseDir hh.name = none) →
        (ExtractArchive cancel baseDir hdrs).2 ≠ none)
    ∧ (ExtractArchive none ["tmp", "dest"]
        [⟨["..", "..", "etc", "passwd"], TarType.reg, 0, ""⟩]).2 = some XErr.traversal := by
  intro baseDir hdrs cancel
  have hJ0 : ∀ q, q <+: (cleanPath baseDir).comps → initFS baseDir q = some Node.dirN := by
    intro q hq
    simp [initFS, (isPre_iff q (cleanPath baseDir).comps).mpr hq]
  have hD0 : ∀ q, initFS baseDir q ≠ initFS baseDir q →
      ((cleanPath baseDir).comps <+: q ∧ q ≠ (cleanPath baseDir).comps) := by
    intro q hq
    exact absurd rfl hq
  obtain ⟨_, hD, hOk, hTr⟩ := extractC_inv baseDir hdrs cancel (initFS baseDir) hJ0 hD0
  exact ⟨hD, hOk, hTr, by decide⟩

/-- Witness for C1: a concrete archive holding an escaping entry makes the
extraction fail. -/
theorem c1_extract_path_traversal_witness :
    (ExtractArchive none ["d"] [⟨["..", "x"], TarType.reg, 3, ""⟩]).2 ≠ none :=
  (c1_extract_path_traversal ["d"] [⟨["..", "x"], TarType.reg, 3, ""⟩] none).2.2.1 rfl
    ⟨⟨["..", "x"], TarType.reg, 3, ""⟩, by decide, by decide⟩

theorem extractC_take (base : List String) : ∀ (hdrs : List Header) (k : Nat) (fs : FS),
    extractC (some k) base fs hdrs =
      ((extractC none base fs (hdrs.take k)).1,
       if k ≤ hdrs.length then some ((extractC none base fs (hdrs.take k)).2.getD XErr.cancelled)
       else (extractC none base fs (hdrs.take k)).2) := by
  intro hdrs
  induction hdrs with
  | nil =>
    intro k fs
    rcases k with _ | n
    · rfl
    · simp [extractC]
  | cons h t ih =>
    intro k fs
    rcases k with _ | n
    · rfl
    · have hred : extractC (some (n + 1)) base fs (h :: t) =
          (match (extractStep base fs h).2 with
           | some e => ((extractStep base fs h).1, some e)
           | none => extractC (some n) base (extractStep base fs h).1 t) := rfl
      have hred2 : ∀ (l : List Header), extractC none base fs (h :: l) =
          (match (extractStep base fs h).2 with
           | some e => ((extractStep base fs h).1, some e)
           | none => extractC none base (extractStep base fs h).1 l) := fun _ => rfl
      rw [List.take_succ_cons, hred, hred2]
      cases hse : (extractStep base fs h).2 with
      | some e => simp
      | none =>
        rw [ih n (extractStep base fs h).1]
        simp [Nat.succ_le_succ_iff]

theorem listC_none (hdrs : List Header) : listC none hdrs = (hdrs, none) := by
  induction hdrs with
  | nil => rfl
  | cons h t ih => simp [listC, ih]

theorem listC_cancelled (hdrs : List Header) : ∀ k, k ≤ hdrs.length →
    listC (some k) hdrs = ([], some XErr.cancelled) := by
  induction hdrs with
  | nil =>
    intro k hk
    have : k = 0 := Nat.le_zero.mp hk
    subst this
    rfl
  | cons h t ih =>
    intro k hk
    rcases k with _ | n
    · rfl
    · have := ih n (by simpa using hk)
      simp [listC, this]

theorem walkC_none (hdrs : List Header) : walkC none hdrs = ⟨hdrs, none, none⟩ := by
  induction hdrs with
  | nil => rfl
  | cons h t ih => simp [walkC, ih]

theorem walkC_some (hdrs : List Header) : ∀ k,
    (hdrs.length ≤ k → walkC (some k) hdrs = ⟨hdrs, none, some (k - hdrs.length)⟩)
    ∧ (k < hdrs.length → walkC (some k) hdrs = ⟨hdrs.take k, some XErr.cancelled, some 0⟩) := by
  induction hdrs with
  | nil =>
    intro k
    exact ⟨fun _ => by simp [walkC], fun hk => absurd hk (by simp)⟩
  | cons h t ih =>
    intro k
    rcases k with _ | n
    · exact ⟨fun hk => absurd hk (by simp), fun _ => rfl⟩
    · constructor
      · intro hk
        have h2 : t.length ≤ n := by simpa using hk
        have hred : walkC (some (n + 1)) (h :: t) =
            ⟨h :: (walkC (some n) t).hdrs, (walkC (some n) t).err, (walkC (some n) t).cancel⟩ := rfl
        rw [hred, (ih n).1 h2]
        simp
      · intro hk
        have h2 : n < t.length := by simpa using hk
        have hred : walkC (some (n + 1)) (h :: t) =
            ⟨h :: (walkC (some n) t).hdrs, (walkC (some n) t).err, (walkC (some n) t).cancel⟩ := rfl
        rw [hred, (ih n).2 h2]
        simp

theorem createC_none (ss : List SourceSpec) :
    createC none ss = ⟨fullCreateHeaders ss, none, none⟩ := by
  induction ss with
  | nil => rfl
  | cons s rest ih =>
    have hred : createC none (s :: rest) =
        (let r :=
          match s with
          | SourceSpec.fileSrc d sz => (⟨[⟨[d], TarType.reg, sz, ""⟩], none, none⟩ : EmitRes)
          | SourceSpec.dirSrc d tree => walkC none (dirHeaders d tree)
         match r.err with
         | some e => ⟨r.hdrs, some e, r.cancel⟩
         | none =>
           let r2 := createC r.cancel rest
           ⟨r.hdrs ++ r2.hdrs, r2.err, r2.cancel⟩) := rfl
    rw [hred]
    cases s with
    | fileSrc d sz =>
      simp only [ih]
      simp [fullCreateHeaders, sourceHeaders]
    | dirSrc d tree =>
      simp only [walkC_none, ih]
      simp [fullCreateHeaders, sourceHeaders]

theorem fullCreateHeaders_cons (s : SourceSpec) (rest : List SourceSpec) :
    fullCreateHeaders (s :: rest) = sourceHeaders s ++ fullCreateHeaders rest := by
  simp [fullCreateHeaders]

theorem createC_some (ss : List SourceSpec) : ∀ k,
    (totalChecks ss ≤ k →
      createC (some k) ss = ⟨fullCreateHeaders ss, none, some (k - totalChecks ss)⟩)
    ∧ (k < totalChecks ss →
      (createC (some k) ss).err = some XErr.cancelled
      ∧ (createC (some k) ss).hdrs <+: fullCreateHeaders ss
      ∧ (createC (some k) ss).hdrs.length ≤ k) := by
  induction ss with
  | nil =>
    intro k
    refine ⟨fun _ => by simp [createC, fullCreateHeaders, totalChecks], ?_⟩
    intro hk
    simp [totalChecks] at hk
  | cons s rest ih =>
    intro k
    rcases k with _ | n
    · have hzero : createC (some 0) (s :: rest) = ⟨[], some XErr.cancelled, some 0⟩ := by
        cases s <;> rfl
      refine ⟨?_, ?_⟩
      · intro hk
        exfalso
        cases s <;> simp [totalChecks, sourceChecks] at hk
      · intro _
        rw [hzero]
        exact ⟨rfl, List.nil_prefix, by simp⟩
    · cases s with
      | fileSrc d sz =>
        have hred : createC (some (n + 1)) (SourceSpec.fileSrc d sz :: rest) =
            ⟨⟨[d], TarType.reg, sz, ""⟩ :: (createC (some n) rest).hdrs,
             (createC (some n) rest).err, (createC (some n) rest).cancel⟩ := rfl
        have htc : totalChecks (SourceSpec.fileSrc d sz :: rest) = 1 + totalChecks rest := by
          simp [totalChecks, sourceChecks]
        have hfull : fullCreateHeaders (SourceSpec.fileSrc d sz :: rest) =
            ⟨[d], TarType.reg, sz, ""⟩ :: fullCreateHeaders rest := by
          simp [fullCreateHeaders, sourceHeaders]
        constructor
        · intro hk
          have h2 : totalChecks rest ≤ n := by omega
          rw [hred, (ih n).1 h2, hfull]
          have : n - totalChecks rest = n + 1 - totalChecks (SourceSpec.fileSrc d sz :: rest) := by
            omega
          simp [this]
        · intro hk
          have h2 : n < totalChecks rest := by omega
          obtain ⟨e1, e2, e3⟩ := (ih n).2 h2
          rw [hred, hfull]
          refine ⟨e1, List.cons_prefix_cons.mpr ⟨rfl, e2⟩, ?_⟩
          simpa using Nat.succ_le_succ e3
      | dirSrc d tree =>
        have hred : createC (some (n + 1)) (SourceSpec.dirSrc d tree :: rest) =
            (match (walkC (some n) (dirHeaders d tree)).err with
             | some e => ⟨(walkC (some n) (dirHeaders d tree)).hdrs, some e,
                 (walkC (some n) (dirHeaders d tree)).cancel⟩
             | none => ⟨(walkC (some n) (dirHeaders d tree)).hdrs ++
                 (createC (walkC (some n) (dirHeaders d tree)).cancel rest).hdrs,
                 (createC (walkC (some n) (dirHeaders d tree)).cancel rest).err,
                 (createC (walkC (some n) (dirHeaders d tree)).cancel rest).cancel⟩) := rfl
        have hlen : (dirHeaders d tree).length = 1 + tree.length := by
          simp [dirHeaders]
          omega
        have htc : totalChecks (SourceSpec.dirSrc d tree :: rest) =
            (1 + (1 + tree.length)) + totalChecks rest := by
          simp [totalChecks, sourceChecks]
        have hfull : fullCreateHeaders (SourceSpec.dirSrc d tree :: rest) =
            dirHeaders d tree ++ fullCreateHeaders rest :=
          fullCreateHeaders_cons _ _
        constructor
        · intro hk
          have hw : (dirHeaders d tree).length ≤ n := by omega
          rw [hred, (walkC_some (dirHeaders d tree) n).1 hw]
          dsimp only
          have h2 : totalChecks rest ≤ n - (dirHeaders d tree).length := by omega
          rw [(ih _).1 h2, hfull]
          have : n - (dirHeaders d tree).length - totalChecks rest =
              n + 1 - totalChecks (SourceSpec.dirSrc d tree :: rest) := by
            omega
          simp [this]
        · intro hk
          by_cases hw : (dirHeaders d tree).length ≤ n
          · rw [hred, (walkC_some (dirHeaders d tree) n).1 hw]
            dsimp only
            have h2 : n - (dirHeaders d tree).length < totalChecks rest := by omega
            obtain ⟨e1, e2, e3⟩ := (ih (n - (dirHeaders d tree).length)).2 h2
            rw [hfull]
            refine ⟨e1, ?_, ?_⟩
            · rcases e2 with ⟨tl, htl⟩
              exact ⟨tl, by rw [List.append_assoc, htl]⟩
            · simp only [List.length_append]
              omega
          · push_neg at hw
            rw [hred, (walkC_some (dirHeaders d tree) n).2 hw]
            dsimp only
            rw [hfull]
            refine ⟨rfl, (List.take_prefix _ _).trans (List.prefix_append _ _), ?_⟩
            simp only [List.length_take]
            omega

/-- C9: all three archive operations poll the cancellation signal at every
entry or iteration boundary.  Extraction cancelled after k polls has exactly
the state of extracting the first k entries and returns an error
(cancellation, unless an earlier entry already failed); listing runs to
completion without a signal and returns nothing but the cancellation error
once the signal fires within the entry count; creation without a signal
emits every header, and a signal firing before the last poll stops the run
with a cancellation error after at most one entry per spent poll, the
emitted entries being a prefix of the full run (the partial output staying
in the destination file). -/
theorem c9_cancellation_checks :
    (∀ (baseDir : List String) (hdrs : List Header) (k : Nat), k ≤ hdrs.length →
      (ExtractArchive (some k) baseDir hdrs).1 = (ExtractArchive none baseDir (hdrs.take k)).1
      ∧ (ExtractArchive (some k) baseDir hdrs).2 ≠ none
      ∧ ((ExtractArchive none baseDir (hdrs.take k)).2 = none →
          (ExtractArchive (some k) baseDir hdrs).2 = some XErr.cancelled))
    ∧ (∀ hdrs : List Header, ListArchive none hdrs = (hdrs, none))
    ∧ (∀ (hdrs : List Header) (k : Nat), k ≤ hdrs.length →
        ListArchive (some k) hdrs = ([], some XErr.cancelled))
    ∧ (∀ ss : List SourceSpec, createC none ss = ⟨fullCreateHeaders ss, none, none⟩)
    ∧ (∀ (ss : List SourceSpec) (k : Nat), k < totalChecks ss →
        (createC (some k) ss).err = some XErr.cancelled
        ∧ (createC (some k) ss).hdrs <+: fullCreateHeaders ss
        ∧ (createC (some k) ss).hdrs.length ≤ k)
    ∧ (∀ (ss : List SourceSpec) (k : Nat), totalChecks ss ≤ k →
        createC (some k) ss = ⟨fullCreateHeaders ss, none, some (k - totalChecks ss)⟩) := by
  refine ⟨?_, listC_none, listC_cancelled, createC_none,
      fun ss k => (createC_some ss k).2, fun ss k => (createC_some ss k).1⟩
  intro baseDir hdrs k hk
  unfold ExtractArchive
  rw [extractC_take baseDir hdrs k (initFS baseDir)]
  refine ⟨rfl, ?_, ?_⟩
  · simp [hk]
  · intro hnone
    simp [hk, hnone]

/-- Witness for C9: a two-entry archive listed with the signal firing after
one poll returns only the cancellation error. -/
theorem c9_cancellation_checks_witness :
    (1 ≤ ([⟨["f"], TarType.reg, 1, ""⟩, ⟨["g"], TarType.reg, 1, ""⟩] : List Header).length)
    ∧ ListArchive (some 1) [⟨["f"], TarType.reg, 1, ""⟩, ⟨["g"], TarType.reg, 1, ""⟩] =
      ([], some XErr.cancelled) :=
  ⟨by decide, c9_cancellation_checks.2.2.1 [⟨["f"], TarType.reg, 1, ""⟩, ⟨["g"], TarType.reg, 1, ""⟩]
    1 (by decide)⟩

theorem joinSp_mem_sub (l : List String) : ∀ x ∈ l, x.data <:+: (joinSp l).data := by
  induction l with
  | nil => intro x hx; exact absurd hx (List.not_mem_nil x)
  | cons y rest ih =>
    intro x hx
    cases rest with
    | nil =>
      rcases List.mem_singleton.mp hx with rfl
      exact ⟨[], [], by simp [joinSp]⟩
    | cons z t =>
      rcases List.mem_cons.mp hx with rfl | hx2
      · refine ⟨[], (" " ++ joinSp (z :: t)).data, ?_⟩
        simp [joinSp, String.data_append]
      · rcases ih x hx2 with ⟨s, t2, hst⟩
        refine ⟨y.data ++ " ".data ++ s, t2, ?_⟩
        have : joinSp (y :: z :: t) = y ++ " " ++ joinSp (z :: t) := by
          simp [joinSp]
        rw [this, String.data_append, String.data_append, ← hst]
        simp

theorem validate_valid_iff (ep : List String) :
    (Validate ep).valid = true ↔ missingOf ep = [] := by
  by_cases hm : (missingOf ep).length > 0
  · unfold Validate
    dsimp only
    rw [if_pos hm]
    constructor
    · intro h; exact absurd h (by simp)
    · intro h; rw [h] at hm; simp at hm
  · unfold Validate
    dsimp only
    rw [if_neg hm]
    constructor
    · intro _
      have h0 : (missingOf ep).length = 0 := by omega
      exact List.length_eq_zero.mp h0
    · intro _; rfl

/-- C5: Validate is false exactly when one of the three required top-level
entries is absent from the listing; each missing required name is spelled
out in the explanation; validity depends on nothing but the presence of the
three required names (so optional artifacts can never make a backup
invalid); an archive carrying exactly the three (regardless of entry sizes,
which Validate never reads) is valid, and extra optional entries keep it
valid. -/
theorem c5_validate_required_entries :
    (∀ entryPaths : List String,
      ((Validate entryPaths).valid = true ↔
        ("container.json" ∈ entryPaths ∧ "filesystem.tar" ∈ entryPaths ∧
         "metadata.json" ∈ entryPaths)))
    ∧ (∀ (entryPaths : List String) (r : String), r ∈ requiredNames → r ∉ entryPaths →
        (Validate entryPaths).valid = false ∧ r.data <:+: (Validate entryPaths).details.data)
    ∧ (∀ l₁ l₂ : List String, (∀ r ∈ requiredNames, (r ∈ l₁ ↔ r ∈ l₂)) →
        (Validate l₁).valid = (Validate l₂).valid)
    ∧ Validate ["container.json", "filesystem.tar", "metadata.json"] =
        ⟨true, "backup structure is valid"⟩
    ∧ (Validate ["container.json", "filesystem.tar", "metadata.json",
        "volumes/myvol.tar.gz", "networks/network_configs.json", "image.tar"]).valid = true := by
  have hchar : ∀ ep : List String, missingOf ep = [] ↔ (∀ r ∈ requiredNames, r ∈ ep) := by
    intro ep
    simp [missingOf, List.filter_eq_nil_iff]
  refine ⟨?_, ?_, ?_, by decide, by decide⟩
  · intro ep
    rw [validate_valid_iff ep, hchar ep]
    simp [requiredNames]
  · intro ep r hr hnot
    have hm : r ∈ missingOf ep := List.mem_filter.mpr ⟨hr, by simp [hnot]⟩
    have hne : missingOf ep ≠ [] := by
      intro h; rw [h] at hm; exact absurd hm (List.not_mem_nil r)
    have hlen : (missingOf ep).length > 0 := List.length_pos.mpr hne
    constructor
    · unfold Validate
      dsimp only
      rw [if_pos hlen]
    · unfold Validate
      dsimp only
      rw [if_pos hlen]
      dsimp only
      rcases joinSp_mem_sub (missingOf ep) r hm with ⟨s, t, hst⟩
      refine ⟨"missing required entries: [".data ++ s, t ++ "]".data, ?_⟩
      rw [String.data_append, String.data_append, ← hst]
      simp
  · intro l₁ l₂ hagree
    have hmiss : missingOf l₁ = missingOf l₂ := by
      refine List.filter_congr ?_
      intro a ha
      have hcont : l₁.contains a = l₂.contains a := by
        by_cases h1 : a ∈ l₁
        · have h2 := (hagree a ha).mp h1
          simp [h1, h2]
        · have h2 : a ∉ l₂ := fun hh => h1 ((hagree a ha).mpr hh)
          simp [h1, h2]
      rw [hcont]
    simp [Validate, hmiss]

/-- Witness for C5: a listing without metadata.json is invalid and the
explanation names metadata.json. -/
theorem c5_validate_required_entries_witness :
    (Validate ["container.json", "filesystem.tar"]).valid = false ∧
    "metadata.json".data <:+: (Validate ["container.json", "filesystem.tar"]).details.data :=
  c5_validate_required_entries.2.1 ["container.json", "filesystem.tar"] "metadata.json"
    (by decide) (by decide)

/-- C6: with drop-host-ips set, every recorded binding is kept and its host
IP is cleared (this includes bindings whose IP is present on the host);
with drop-host-ips unset, a binding survives exactly when its host IP is
empty or among the host's addresses — surviving bindings are kept
unchanged, so a non-empty host IP absent from the host drops the binding
and a present one keeps it as recorded; the per-port filter is applied to
every port of the map independently. -/
theorem c6_port_binding_host_ip_validation :
    (∀ (present : List String) (bs : List PortBinding),
      filterBindingsOnePort present true bs = bs.map clearHostIP)
    ∧ (∀ (present : List String) (bs : List PortBinding),
      filterBindingsOnePort present false bs =
        bs.filter (fun b => b.hostIP = "" || present.contains b.hostIP))
    ∧ (∀ (present : List String) (bs : List PortBinding) (b : PortBinding),
        b ∈ bs → b.hostIP ≠ "" → b.hostIP ∉ present →
        b ∉ filterBindingsOnePort present false bs)
    ∧ (∀ (present : List String) (bs : List PortBinding) (b : PortBinding),
        b ∈ bs → b.hostIP ∈ present →
        b ∈ filterBindingsOnePort present false bs)
    ∧ (∀ (present : List String) (drop : Bool) (pb : List (String × List PortBinding)),
        filterPortBindings present drop pb =
          pb.map (fun e => (e.1, filterBindingsOnePort present drop e.2))) := by
  have hT : ∀ (present : List String) (bs : List PortBinding),
      filterBindingsOnePort present true bs = bs.map clearHostIP := by
    intro present bs
    induction bs with
    | nil => rfl
    | cons b rest ih => simp [filterBindingsOnePort, List.filterMap_cons] at ih ⊢; exact ih
  have hF : ∀ (present : List String) (bs : List PortBinding),
      filterBindingsOnePort present false bs =
        bs.filter (fun b => b.hostIP = "" || present.contains b.hostIP) := by
    intro present bs
    induction bs with
    | nil => rfl
    | cons b rest ih =>
      by_cases hb : b.hostIP = ""
      · have hcb : clearHostIP b = b := by
          cases b with
          | mk ip port => simp only [clearHostIP]; simp only at hb; rw [hb]
        simp [filterBindingsOnePort, List.filterMap_cons, List.filter_cons, hb, hcb] at ih ⊢
        exact ih
      · by_cases hc : b.hostIP ∈ present
        · simp [filterBindingsOnePort, List.filterMap_cons, List.filter_cons, hb, hc] at ih ⊢
          exact ih
        · simp [filterBindingsOnePort, List.filterMap_cons, List.filter_cons, hb, hc] at ih ⊢
          exact ih
  refine ⟨hT, hF, ?_, ?_, fun _ _ _ => rfl⟩
  · intro present bs b hmem hne hnc
    rw [hF]
    intro hin
    have hp := (List.mem_filter.mp hin).2
    simp [hne, hnc] at hp
  · intro present bs b hmem hc
    rw [hF]
    exact List.mem_filter.mpr ⟨hmem, by simp [hc]⟩

/-- Witness for C6: the spec example binding with host IP 203.0.113.9,
absent from the host, is dropped when drop-host-ips is false. -/
theorem c6_port_binding_host_ip_validation_witness :
    (⟨"203.0.113.9", "8080"⟩ : PortBinding) ∉
      filterBindingsOnePort ["127.0.0.1", "0.0.0.0"] false [⟨"203.0.113.9", "8080"⟩] :=
  c6_port_binding_host_ip_validation.2.2.1 ["127.0.0.1", "0.0.0.0"]
    [⟨"203.0.113.9", "8080"⟩] ⟨"203.0.113.9", "8080"⟩ (by decide) (by decide) (by decide)

theorem indexOf_single_none (o : Char) (s : List Char) (h : indexOf s [o] = none) : o ∉ s := by
  induction s with
  | nil => exact List.not_mem_nil o
  | cons c rest ih =>
    simp only [indexOf, List.length_singleton] at h ih
    rw [if_neg (by simp)] at h
    rw [if_neg (by simp)] at ih
    unfold indexOfAux at h
    by_cases hp : isPreC [o] (c :: rest) = true
    · rw [if_pos hp] at h
      exact absurd h (by simp)
    · rw [if_neg hp] at h
      have hco : ¬ o = c := by
        intro he
        exact hp (by simp [isPreC, he])
      intro hmem
      rcases List.mem_cons.mp hmem with he | hm2
      · exact hco he
      · exact ih (by
          cases hr : indexOfAux [o] rest with
          | none => rfl
          | some j => rw [hr] at h; exact absurd h (by simp)) hm2

theorem indexOf_single_some (o : Char) (s : List Char) : ∀ idx, indexOf s [o] = some idx →
    ∃ l r, s = l ++ o :: r ∧ l.length = idx ∧ o ∉ l := by
  induction s with
  | nil => intro idx h; simp [indexOf, indexOfAux] at h
  | cons c rest ih =>
    intro idx h
    simp only [indexOf, List.length_singleton] at h ih
    rw [if_neg (by simp)] at h
    unfold indexOfAux at h
    by_cases hp : isPreC [o] (c :: rest) = true
    · rw [if_pos hp] at h
      have hoc : o = c := by
        by_contra hne
        simp [isPreC, hne] at hp
      rcases Option.some.inj h with rfl
      exact ⟨[], rest, by simp [hoc], rfl, List.not_mem_nil o⟩
    · rw [if_neg hp] at h
      have hco : ¬ o = c := by
        intro he
        exact hp (by simp [isPreC, he])
      cases hr : indexOfAux [o] rest with
      | none => rw [hr] at h; simp at h
      | some j =>
        rw [hr] at h
        have h : j + 1 = idx := by simpa using h
        obtain ⟨l, r, hs, hl, hno⟩ := ih j (by rw [if_neg (by simp)]; exact hr)
        refine ⟨c :: l, r, by simp [hs], by simp [hl, ← h], ?_⟩
        intro hmem
        rcases List.mem_cons.mp hmem with he | hm2
        · exact hco he
        · exact hno hm2

theorem map_subst_id (o n : Char) (s : List Char) (hno : o ∉ s) :
    s.map (fun c => if c = o then n else c) = s := by
  have h1 : s.map (fun c => if c = o then n else c) = s.map id := by
    refine List.map_congr_left ?_
    intro c hcm
    have hcne : c ≠ o := fun he => hno (he ▸ hcm)
    simp [hcne]
  rw [h1, List.map_id]

theorem replaceAll_single (o n : Char) (hne : o ≠ n) : ∀ (fuel : Nat) (s : List Char),
    List.count o s ≤ fuel →
    replaceAllFuel [o] [n] fuel s = s.map (fun c => if c = o then n else c) := by
  intro fuel
  induction fuel with
  | zero =>
    intro s hc
    have hno : o ∉ s := by
      intro hmem
      have hpos := List.count_pos_iff.mpr hmem
      omega
    rw [show replaceAllFuel [o] [n] 0 s = s from rfl, map_subst_id o n s hno]
  | succ f ih =>
    intro s hc
    unfold replaceAllFuel
    cases hio : indexOf s [o] with
    | none =>
      have hno := indexOf_single_none o s hio
      rw [map_subst_id o n s hno]
    | some idx =>
      obtain ⟨l, r, hs, hlen, hno⟩ := indexOf_single_some o s idx hio
      subst hs
      have htake : (l ++ o :: r).take idx = l := by
        rw [← hlen]
        exact List.take_left l (o :: r)
      have hdrop : (l ++ o :: r).drop (idx + 1) = r := by
        rw [← hlen]
        have he : l ++ o :: r = (l ++ [o]) ++ r := by simp
        have hll : l.length + 1 = (l ++ [o]).length := by simp
        rw [he, hll, List.drop_left]
      dsimp only
      simp only [List.length_singleton]
      rw [htake, hdrop]
      have hcount : List.count o (l ++ [n] ++ r) ≤ f := by
        have h1 : List.count o l = 0 := List.count_eq_zero.mpr hno
        have h2 : List.count o (l ++ o :: r) = List.count o l + (List.count o r + 1) := by
          simp [List.count_append, List.count_cons_self]
        have h3 : List.count o [n] = 0 := List.count_eq_zero.mpr (by simp [hne])
        have h4 : List.count o (l ++ [n] ++ r) =
            List.count o l + List.count o [n] + List.count o r := by
          simp only [List.count_append]
        omega
      rw [ih _ hcount]
      have hsubn : (if n = o then n else n) = n := by simp
      simp [List.map_append, hsubn]

theorem stringReplaceAll_single (o n : Char) (hne : o ≠ n) (s : List Char) :
    stringReplaceAll s [o] [n] = s.map (fun c => if c = o then n else c) := by
  unfold stringReplaceAll
  exact replaceAll_single o n hne (s.length + 1) s
    (le_trans (List.count_le_length o s) (Nat.le_succ _))

theorem subst_chain_good (c : Char) :
    (fun x => if x = '\t' then '-' else x)
      ((fun x => if x = ':' then '-' else x)
        ((fun x => if x = ' ' then '-' else x)
          ((fun x => if x = '\\' then '-' else x)
            ((fun x => if x = '/' then '-' else x) c)))) ∉ safeNameBad := by
  by_cases h1 : c = '/'
  · subst h1; decide
  · by_cases h2 : c = '\\'
    · subst h2; decide
    · by_cases h3 : c = ' '
      · subst h3; decide
      · by_cases h4 : c = ':'
        · subst h4; decide
        · by_cases h5 : c = '\t'
          · subst h5; decide
          · simp only [if_neg h1, if_neg h2, if_neg h3, if_neg h4, if_neg h5]
            simp [safeNameBad, h1, h2, h3, h4, h5]

set_option maxHeartbeats 1600000 in
theorem safeName_eq_map (s : String) (hs : s ≠ "") :
    (safeName s).data = s.data.map (fun c =>
      (fun x => if x = '\t' then '-' else x)
        ((fun x => if x = ':' then '-' else x)
          ((fun x => if x = ' ' then '-' else x)
            ((fun x => if x = '\\' then '-' else x)
              ((fun x => if x = '/' then '-' else x) c))))) := by
  unfold safeName
  rw [if_neg hs]
  have hstep : safeNameBad.foldl (fun t o => stringReplaceAll t [o] ['-']) s.data =
      stringReplaceAll (stringReplaceAll (stringReplaceAll (stringReplaceAll
        (stringReplaceAll s.data ['/'] ['-']) ['\\'] ['-']) [' '] ['-']) [':'] ['-'])
        ['\t'] ['-'] := by
    simp only [safeNameBad, List.foldl_cons, List.foldl_nil]
  show safeNameBad.foldl (fun t o => stringReplaceAll t [o] ['-']) s.data = _
  rw [hstep, stringReplaceAll_single '/' '-' (by decide),
      stringReplaceAll_single '\\' '-' (by decide),
      stringReplaceAll_single ' ' '-' (by decide),
      stringReplaceAll_single ':' '-' (by decide),
      stringReplaceAll_single '\t' '-' (by decide)]
  rw [List.map_map, List.map_map, List.map_map, List.map_map]
  refine List.map_congr_left ?_
  intro c _
  rfl

/-- C10: safeName never returns the empty string and its result contains
none of the rewritten characters (slash, backslash, space, colon, tab); the
empty name maps to "container"; and the default backup output base name,
the per-volume archive name and the per-bind archive name under volumes/
are all functions of the sanitized name alone. -/
theorem c10_safe_name_sanitizes :
    (∀ s : String, safeName s ≠ "" ∧ ∀ c ∈ (safeName s).data, c ∉ safeNameBad)
    ∧ safeName "" = "container"
    ∧ (∀ a b : String, safeName a = safeName b →
        defaultOutputBase a = defaultOutputBase b
        ∧ volumeArchiveFileName a = volumeArchiveFileName b
        ∧ bindArchiveFileName a = bindArchiveFileName b) := by
  refine ⟨?_, by decide, ?_⟩
  · intro s
    by_cases hs : s = ""
    · subst hs
      exact ⟨by decide, by decide⟩
    · have hd := safeName_eq_map s hs
      constructor
      · intro he
        have h2 : (safeName s).data = [] := by rw [he]
        rw [hd] at h2
        have h3 : s.data = [] := by
          cases hm : s.data with
          | nil => rfl
          | cons a t => rw [hm] at h2; simp at h2
        exact hs (String.ext (by rw [h3]))
      · intro c hc
        rw [hd] at hc
        obtain ⟨c0, _, rfl⟩ := List.mem_map.mp hc
        exact subst_chain_good c0
  · intro a b h
    exact ⟨by unfold defaultOutputBase; rw [h],
           by unfold volumeArchiveFileName; rw [h],
           by unfold bindArchiveFileName; rw [h]⟩

/-- Witness for C10: the sanitized form of a name carrying a slash, a space
and a colon is dash-separated, and none of its characters is a rewritten
one. -/
theorem c10_safe_name_sanitizes_witness :
    safeName "/unit test:x" ≠ "" ∧ ('-' ∈ (safeName "/unit test:x").data → '-' ∉ safeNameBad) :=
  ⟨(c10_safe_name_sanitizes.1 "/unit test:x").1,
   fun hm => (c10_safe_name_sanitizes.1 "/unit test:x").2 '-' hm⟩

theorem insertSorted_perm (x : String) (l : List String) :
    (insertSorted x l).Perm (x :: l) := by
  induction l with
  | nil => exact List.Perm.refl _
  | cons y ys ih =>
    unfold insertSorted
    by_cases h : strLeB x y = true
    · simp [h]
    · simp only [h, if_false]
      exact ((ih.cons y).trans (List.Perm.swap x y ys)).symm.symm

theorem sortStrings_perm (l : List String) : (sortStrings l).Perm l := by
  induction l with
  | nil => exact List.Perm.refl _
  | cons x xs ih => exact (insertSorted_perm x (sortStrings xs)).trans (ih.cons x)

theorem gedges_snd (g : List (String × List String)) (e : String × String)
    (h : e ∈ gedges g) : e.2 ∈ gnames g := by
  unfold gedges at h
  obtain ⟨p, hp, he⟩ := List.mem_flatMap.mp h
  obtain ⟨d, _, hval⟩ := List.mem_map.mp he
  rw [← hval]
  exact List.mem_map.mpr ⟨p, hp, rfl⟩

theorem adjOf_sub (g : List (String × List String)) (x nb : String)
    (h : nb ∈ adjOf g x) : nb ∈ gnames g := by
  unfold adjOf at h
  obtain ⟨e, he, hval⟩ := List.mem_filterMap.mp h
  by_cases hx : e.1 = x
  · rw [if_pos hx] at hval
    rcases Option.some.inj hval with rfl
    exact gedges_snd g e he
  · rw [if_neg hx] at hval
    exact absurd hval (by simp)

theorem processNbrs_inv (g : List (String × List String)) (order : List String) :
    ∀ (nbrs : List String) (f : String → Int) (q : List String),
    (∀ nb ∈ nbrs, nb ∈ gnames g) →
    (order ++ q).Nodup →
    (∀ x ∈ order ++ q, x ∈ gnames g) →
    (∀ x ∈ order ++ q, f x ≤ 0) →
    ((order ++ (processNbrs f q nbrs).2).Nodup
     ∧ (∀ x ∈ order ++ (processNbrs f q nbrs).2, x ∈ gnames g)
     ∧ (∀ x ∈ order ++ (processNbrs f q nbrs).2, (processNbrs f q nbrs).1 x ≤ 0)) := by
  intro nbrs
  induction nbrs with
  | nil => intro f q _ h2 h3 h4; exact ⟨h2, h3, h4⟩
  | cons nb rest ih =>
    intro f q hnb h2 h3 h4
    have hred : processNbrs f q (nb :: rest) =
        processNbrs (indegUpd f nb (f nb - 1))
          (if f nb - 1 = 0 then sortStrings (q ++ [nb]) else q) rest := rfl
    rw [hred]
    by_cases hd : f nb - 1 = 0
    · rw [if_pos hd]
      have hnotin : nb ∉ order ++ q := by
        intro hin
        have := h4 nb hin
        omega
      have hperm : (order ++ sortStrings (q ++ [nb])).Perm (nb :: (order ++ q)) := by
        refine ((sortStrings_perm (q ++ [nb])).append_left order).trans ?_
        have h1 : (order ++ (q ++ [nb])) = ((order ++ q) ++ [nb]) := by simp
        rw [h1]
        exact List.perm_append_singleton nb (order ++ q)
      refine ih (indegUpd f nb (f nb - 1)) (sortStrings (q ++ [nb]))
        (fun x hx => hnb x (List.mem_cons_of_mem nb hx)) ?_ ?_ ?_
      · exact hperm.nodup_iff.mpr (List.nodup_cons.mpr ⟨hnotin, h2⟩)
      · intro x hx
        rcases List.mem_cons.mp (hperm.mem_iff.mp hx) with rfl | hx2
        · exact hnb x (List.mem_cons_self x rest)
        · exact h3 x hx2
      · intro x hx
        by_cases hxe : x = nb
        · subst hxe
          simp [indegUpd, hd]
        · rcases List.mem_cons.mp (hperm.mem_iff.mp hx) with rfl | hx2
          · exact absurd rfl hxe
          · simpa [indegUpd, hxe] using h4 x hx2
    · rw [if_neg hd]
      refine ih (indegUpd f nb (f nb - 1)) q
        (fun x hx => hnb x (List.mem_cons_of_mem nb hx)) h2 h3 ?_
      intro x hx
      by_cases hxe : x = nb
      · subst hxe
        have := h4 x hx
        simp only [indegUpd, if_pos rfl]
        omega
      · simpa [indegUpd, hxe] using h4 x hx

theorem kahnLoop_inv (g : List (String × List String)) : ∀ (fuel : Nat)
    (f : String → Int) (q order : List String),
    (order ++ q).Nodup →
    (∀ x ∈ order ++ q, x ∈ gnames g) →
    (∀ x ∈ order ++ q, f x ≤ 0) →
    ((kahnLoop (adjOf g) fuel f q order).Nodup
     ∧ ∀ x ∈ kahnLoop (adjOf g) fuel f q order, x ∈ gnames g) := by
  intro fuel
  induction fuel with
  | zero =>
    intro f q order h2 h3 _
    exact ⟨h2.of_append_left, fun x hx => h3 x (List.mem_append_left q hx)⟩
  | succ fl ih =>
    intro f q order h2 h3 h4
    cases q with
    | nil =>
      rw [List.append_nil] at h2 h3
      exact ⟨h2, h3⟩
    | cons cur qrest =>
      have hred : kahnLoop (adjOf g) (fl + 1) f (cur :: qrest) order =
          kahnLoop (adjOf g) fl (processNbrs f qrest (adjOf g cur)).1
            (processNbrs f qrest (adjOf g cur)).2 (order ++ [cur]) := rfl
      rw [hred]
      have heq : order ++ cur :: qrest = (order ++ [cur]) ++ qrest := by simp
      rw [heq] at h2 h3 h4
      obtain ⟨i2, i3, i4⟩ := processNbrs_inv g (order ++ [cur]) (adjOf g cur) f qrest
        (fun nb hnb => adjOf_sub g cur nb hnb) h2 h3 h4
      exact ih _ _ _ i2 i3 i4

theorem kahnOrder_nodup_sub (g : List (String × List String))
    (hnd : (gnames g).Nodup) :
    (kahnOrder g).Nodup ∧ ∀ x ∈ kahnOrder g, x ∈ gnames g := by
  unfold kahnOrder
  have hqperm : (sortStrings ((gnames g).filter (fun n => initIndeg g n == 0))).Perm
      ((gnames g).filter (fun n => initIndeg g n == 0)) := sortStrings_perm _
  refine kahnLoop_inv g ((gnames g).length + 1) (initIndeg g) _ [] ?_ ?_ ?_
  · simpa using hqperm.nodup_iff.mpr (hnd.filter _)
  · intro x hx
    simp only [List.nil_append] at hx
    exact (List.mem_filter.mp (hqperm.mem_iff.mp hx)).1
  · intro x hx
    simp only [List.nil_append] at hx
    have := (List.mem_filter.mp (hqperm.mem_iff.mp hx)).2
    have h0 : initIndeg g x = 0 := by simpa using this
    omega

/-- C4: the order resolver is total and deterministic: for every service
graph with distinct declared names the produced order is a permutation of
the declared names; it is the Kahn order exactly when that order covered
every declared service and the lexicographically sorted name list otherwise
(cycle or dangling dependency); on the spec's chain A ← B ← C it yields
[A, B, C], and on the two-cycle it falls back to [A, B]. -/
theorem c4_order_resolver_total_deterministic :
    (∀ g : List (String × List String), (gnames g).Nodup →
      (orderFromComposeGraph g).Perm (gnames g))
    ∧ (∀ g : List (String × List String), (kahnOrder g).length = (gnames g).length →
        orderFromComposeGraph g = kahnOrder g)
    ∧ (∀ g : List (String × List String), (kahnOrder g).length ≠ (gnames g).length →
        orderFromComposeGraph g = sortStrings (gnames g))
    ∧ orderFromComposeGraph [("A", []), ("B", ["A"]), ("C", ["B"])] = ["A", "B", "C"]
    ∧ orderFromComposeGraph [("A", ["B"]), ("B", ["A"])] = ["A", "B"] := by
  refine ⟨?_, ?_, ?_, by decide, by decide⟩
  · intro g hnd
    unfold orderFromComposeGraph
    by_cases hlen : (kahnOrder g).length ≠ (gnames g).length
    · rw [if_pos hlen]
      exact sortStrings_perm _
    · rw [if_neg hlen]
      push_neg at hlen
      obtain ⟨hkn, hks⟩ := kahnOrder_nodup_sub g hnd
      exact (List.subperm_of_subset hkn hks).perm_of_length_le (le_of_eq hlen.symm)
  · intro g h
    unfold orderFromComposeGraph
    rw [if_neg (by simpa using h)]
  · intro g h
    unfold orderFromComposeGraph
    rw [if_pos h]

/-- Witness for C4: the chain graph has distinct names and its resolved
order is a permutation of them. -/
theorem c4_order_resolver_total_deterministic_witness :
    (gnames [("A", []), ("B", ["A"]), ("C", ["B"])]).Nodup ∧
    (orderFromComposeGraph [("A", []), ("B", ["A"]), ("C", ["B"])]).Perm
      (gnames [("A", []), ("B", ["A"]), ("C", ["B"])]) :=
  ⟨by decide, c4_order_resolver_total_deterministic.1 [("A", []), ("B", ["A"]), ("C", ["B"])]
    (by decide)⟩

theorem processEndpoints_idx (reassign autoRelax : Bool) (hostNets : List IPNet) :
    ∀ (nets : List EndpointIn) (flag : Bool) (i : Nat),
    (processEndpoints reassign autoRelax hostNets flag nets)[i]? =
      (nets[i]?).map (fun e => (e.name,
        if reassign || (autoRelax &&
            (flag || (nets.take (i + 1)).any (endpointConflict hostNets)))
        then none else e.ipamIPv4)) := by
  intro nets
  induction nets with
  | nil => intro flag i; simp [processEndpoints]
  | cons e rest ih =>
    intro flag i
    have hred : processEndpoints reassign autoRelax hostNets flag (e :: rest) =
        (e.name, if reassign || (autoRelax && (flag || endpointConflict hostNets e))
          then none else e.ipamIPv4) ::
        processEndpoints reassign autoRelax hostNets (flag || endpointConflict hostNets e)
          rest := rfl
    rw [hred]
    cases i with
    | zero => simp
    | succ j =>
      simp only [List.getElem?_cons_succ, List.take_succ_cons, List.any_cons]
      rw [ih (flag || endpointConflict hostNets e) j,
        Bool.or_assoc flag (endpointConflict hostNets e)
          ((rest.take (j + 1)).any (endpointConflict hostNets))]

/-- C7 counterexample: with auto-relax-ips set and reassign-ips unset, a
second attachment whose fixed IPv4 does not fall in any host subnet still
has its fixed-address assignment dropped, because the conflict flag set by
the first (conflicting) attachment is never reset — contradicting the claim
that an attachment is dropped only if reassign-ips is set or that
attachment's own address conflicts. -/
theorem c7_static_ip_conflict_counterexample :
    processEndpoints false true [⟨2886795264, 4294901760⟩] false
      [⟨"n1", some "172.17.0.5"⟩, ⟨"n2", some "10.9.9.9"⟩] =
      [("n1", none), ("n2", none)]
    ∧ endpointConflict [⟨2886795264, 4294901760⟩] ⟨"n2", some "10.9.9.9"⟩ = false := by
  refine ⟨by decide, by decide⟩

/-- C7 as amended: a conflict is detected on an attachment exactly when its
address parses as IPv4 and falls inside a host interface subnet; an
attachment's fixed-address assignment is dropped if and only if reassign-ips
is set, or auto-relax-ips is set and a conflict was detected on this or an
earlier-processed attachment (the flag is sticky over the loop, whose order
is Go's unspecified map order, modelled as list order); on the spec's
example a single static 172.17.0.5 inside the host subnet 172.17.0.0/16
with auto-relax-ips ends with the assignment cleared. -/
theorem c7_static_ip_conflict_sticky :
    (∀ (hostNets : List IPNet) (addr : String),
      conflictWithHostIPv4 hostNets addr = true ↔
        ∃ ip, parseIPv4 addr = some ip ∧ ∃ n ∈ hostNets, ipnetContains n ip = true)
    ∧ (∀ (reassign autoRelax : Bool) (hostNets : List IPNet) (nets : List EndpointIn) (i : Nat),
        (processEndpoints reassign autoRelax hostNets false nets)[i]? =
          (nets[i]?).map (fun e => (e.name,
            if reassign || (autoRelax && (nets.take (i + 1)).any (endpointConflict hostNets))
            then none else e.ipamIPv4)))
    ∧ processEndpoints false true [⟨2886795264, 4294901760⟩] false
        [⟨"web", some "172.17.0.5"⟩] = [("web", none)] := by
  refine ⟨?_, ?_, by decide⟩
  · intro hostNets addr
    unfold conflictWithHostIPv4
    cases hp : parseIPv4 addr with
    | none => simp
    | some ip => simp [List.any_eq_true]
  · intro reassign autoRelax hostNets nets i
    have := processEndpoints_idx reassign autoRelax hostNets nets false i
    simpa using this

/-- C8 counterexample: a zero-mount backup archive does not contain exactly
the three file entries — the always-created volumes/ and networks/ scratch
directories contribute directory entries of their own. -/
theorem c8_zero_mounts_counterexample :
    backupEntryNames [] false false false =
      [["container.json"], ["filesystem.tar"], ["volumes", ""], ["networks", ""],
       ["metadata.json"]]
    ∧ ¬ (∀ e ∈ backupEntryNames [] false false false,
        e ∈ [["container.json"], ["filesystem.tar"], ["metadata.json"]]) := by
  refine ⟨by decide, by decide⟩

/-- C8 as amended: a zero-mount backup produces exactly container.json,
filesystem.tar, an empty volumes/ directory entry, an empty networks/
directory entry, and metadata.json — in particular the only entry under
volumes/ is the directory itself, so no volumes tarball exists. -/
theorem c8_zero_mounts_entries :
    backupEntryNames [] false false false =
      [["container.json"], ["filesystem.tar"], ["volumes", ""], ["networks", ""],
       ["metadata.json"]]
    ∧ (∀ e ∈ backupEntryNames [] false false false, ∀ f : String,
        e = ["volumes", f] → f = "") := by
  have hE : backupEntryNames [] false false false =
      [["container.json"], ["filesystem.tar"], ["volumes", ""], ["networks", ""],
       ["metadata.json"]] := by decide
  refine ⟨hE, ?_⟩
  intro e he f hef
  rw [hE] at he
  fin_cases he <;> simp_all

/-- Witness for the amended C8: the volumes directory entry is in the
zero-mount archive and carries no file name below volumes/. -/
theorem c8_zero_mounts_entries_witness :
    ["volumes", ""] ∈ backupEntryNames [] false false false ∧ ("" : String) = "" :=
  ⟨by decide, c8_zero_mounts_entries.2 ["volumes", ""] (by decide) "" rfl⟩

theorem backupSources_fileCreated (w : BackupWorld) :
    (CreateArchive w.finalCancel
      (backupSources w.mounts w.volCfgsNonEmpty w.netCfgsNonEmpty w.imageSaved)).fileCreated =
    true := rfl

/-- C3 counterexample: a run whose every step before the final CreateArchive
succeeds, but whose context is cancelled during the final CreateArchive
(after the first source), fails with the output file already created and
incomplete — a partial archive is left at the final output path. -/
theorem c3_backup_partial_output_counterexample :
    (BackupRun ⟨true, true, true, true, true, true, [], none, false, false, true, false,
      some 1⟩).ok = false
    ∧ (BackupRun ⟨true, true, true, true, true, true, [], none, false, false, true, false,
      some 1⟩).outputTouched = true
    ∧ (BackupRun ⟨true, true, true, true, true, true, [], none, false, false, true, false,
      some 1⟩).outputComplete = false := by
  refine ⟨by decide, by decide, by decide⟩

/-- C3 as amended: whenever the scratch directory was created it is removed
again, success or failure; a failure at any step before the final
CreateArchive call leaves the final output path untouched; the output path
is only ever touched after every earlier step succeeded (so it is written by
the single final CreateArchive call); a failed run that touched the output
did so because the final CreateArchive itself failed, leaving the file
incomplete — so a partial archive can remain at the output path exactly in
that case; and a successful run leaves a complete archive. -/
theorem c3_backup_scratch_and_output :
    (∀ w : BackupWorld, (BackupRun w).scratchCreated = true →
      (BackupRun w).scratchRemoved = true)
    ∧ (∀ w : BackupWorld,
        (w.containerIDNonEmpty = false ∨ w.inspectOk = false ∨ w.parseOk = false ∨
         w.mkScratchOk = false ∨ w.writeContainerJSONOk = false ∨ w.exportOk = false ∨
         (∃ k, w.volArchiveFailAt = some k ∧ k < mountArchiveCalls w.mounts) ∨
         w.metadataWriteOk = false) →
        (BackupRun w).outputTouched = false)
    ∧ (∀ w : BackupWorld, (BackupRun w).outputTouched = true →
        BackupRun w = BackupFinal w ∧ w.metadataWriteOk = true)
    ∧ (∀ w : BackupWorld, (BackupRun w).outputTouched = true → (BackupRun w).ok = false →
        (CreateArchive w.finalCancel
          (backupSources w.mounts w.volCfgsNonEmpty w.netCfgsNonEmpty w.imageSaved)).err ≠ none
        ∧ (BackupRun w).outputComplete = false)
    ∧ (∀ w : BackupWorld, (BackupRun w).ok = true → (BackupRun w).outputComplete = true) := by
  have hcases : ∀ w : BackupWorld,
      BackupRun w = ⟨false, false, false, false, false⟩
      ∨ BackupRun w = ⟨false, true, true, false, false⟩
      ∨ (BackupRun w = BackupFinal w ∧ ¬ w.containerIDNonEmpty = false ∧ ¬ w.inspectOk = false
          ∧ ¬ w.parseOk = false ∧ ¬ w.mkScratchOk = false ∧ ¬ w.writeContainerJSONOk = false
          ∧ ¬ w.exportOk = false
          ∧ (∀ k, w.volArchiveFailAt = some k → ¬ k < mountArchiveCalls w.mounts)) := by
    intro w
    unfold BackupRun
    split_ifs with h1 h2 h3 h4 h5 h6
    · exact Or.inl rfl
    · exact Or.inl rfl
    · exact Or.inl rfl
    · exact Or.inl rfl
    · exact Or.inr (Or.inl rfl)
    · exact Or.inr (Or.inl rfl)
    · simp only [Bool.not_eq_true'] at h1 h2 h3 h4 h5 h6
      cases hva : w.volArchiveFailAt with
      | none =>
        refine Or.inr (Or.inr ⟨rfl, h1, h2, h3, h4, h5, h6, ?_⟩)
        intro k hk
        exact Option.noConfusion hk
      | some k =>
        dsimp only
        by_cases hk : k < mountArchiveCalls w.mounts
        · rw [if_pos hk]
          exact Or.inr (Or.inl rfl)
        · rw [if_neg hk]
          refine Or.inr (Or.inr ⟨rfl, h1, h2, h3, h4, h5, h6, ?_⟩)
          intro k2 hk2
          have hkk : k = k2 := Option.some.inj hk2
          rw [← hkk]
          exact hk
  have hfinal : ∀ w : BackupWorld, (BackupFinal w).outputTouched = true →
      w.metadataWriteOk = true := by
    intro w h
    unfold BackupFinal at h
    by_cases hm : w.metadataWriteOk
    · exact hm
    · rw [if_pos (by simp [hm])] at h
      exact absurd h (by simp)
  have hBF : ∀ w : BackupWorld, w.metadataWriteOk = true →
      BackupFinal w =
        ⟨decide ((CreateArchive w.finalCancel
            (backupSources w.mounts w.volCfgsNonEmpty w.netCfgsNonEmpty w.imageSaved)).err = none),
         true, true,
         (CreateArchive w.finalCancel
            (backupSources w.mounts w.volCfgsNonEmpty w.netCfgsNonEmpty w.imageSaved)).fileCreated,
         (CreateArchive w.finalCancel
            (backupSources w.mounts w.volCfgsNonEmpty w.netCfgsNonEmpty w.imageSaved)).fileCreated
           && decide ((CreateArchive w.finalCancel
            (backupSources w.mounts w.volCfgsNonEmpty
              w.netCfgsNonEmpty w.imageSaved)).err = none)⟩ := by
    intro w hm
    unfold BackupFinal
    rw [if_neg (by simp [hm])]
  have hBFbad : ∀ w : BackupWorld, ¬ w.metadataWriteOk = true →
      BackupFinal w = ⟨false, true, true, false, false⟩ := by
    intro w hm
    unfold BackupFinal
    rw [if_pos (by simpa using hm)]
  refine ⟨?_, ?_, ?_, ?_, ?_⟩
  · intro w h
    rcases hcases w with hc | hc | ⟨hc, _⟩
    · rw [hc] at h; exact absurd h (by simp)
    · rw [hc]
    · rw [hc] at h ⊢
      by_cases hm : w.metadataWriteOk = true
      · rw [hBF w hm]
      · rw [hBFbad w hm]
  · intro w hdis
    rcases hcases w with hc | hc | ⟨hc, p1, p2, p3, p4, p5, p6, p7⟩
    · rw [hc]
    · rw [hc]
    · rcases hdis with h | h | h | h | h | h | ⟨k, hk1, hk2⟩ | h
      · exact absurd h p1
      · exact absurd h p2
      · exact absurd h p3
      · exact absurd h p4
      · exact absurd h p5
      · exact absurd h p6
      · exact absurd hk2 (p7 k hk1)
      · rw [hc, hBFbad w (by simp [h])]
  · intro w h
    rcases hcases w with hc | hc | ⟨hc, _⟩
    · rw [hc] at h; exact absurd h (by simp)
    · rw [hc] at h; exact absurd h (by simp)
    · rw [hc] at h ⊢
      exact ⟨rfl, hfinal w h⟩
  · intro w h hok
    rcases hcases w with hc | hc | ⟨hc, _⟩
    · rw [hc] at h; exact absurd h (by simp)
    · rw [hc] at h; exact absurd h (by simp)
    · rw [hc] at h hok ⊢
      have hm := hfinal w h
      rw [hBF w hm] at hok ⊢
      dsimp only at hok ⊢
      constructor
      · intro he
        rw [he] at hok
        simp at hok
      · simp [hok]
  · intro w hok
    rcases hcases w with hc | hc | ⟨hc, _⟩
    · rw [hc] at hok; exact absurd hok (by simp)
    · rw [hc] at hok; exact absurd hok (by simp)
    · rw [hc] at hok ⊢
      by_cases hm : w.metadataWriteOk = true
      · rw [hBF w hm] at hok ⊢
        dsimp only at hok ⊢
        rw [backupSources_fileCreated w, hok]
        rfl
      · rw [hBFbad w hm] at hok
        exact absurd hok (by simp)

theorem c3_backup_scratch_and_output_witness :
    (BackupRun ⟨true, true, true, true, true, true, [], none, false, false, true, false,
       some 1⟩).scratchRemoved = true
    ∧ (BackupRun ⟨false, true, true, true, true, true, [], none, false, false, true, false,
       none⟩).outputTouched = false
    ∧ (BackupRun ⟨true, true, true, true, true, true, [], none, false, false, true, false,
       none⟩).outputComplete = true :=
  ⟨c3_backup_scratch_and_output.1 _ (by decide),
   c3_backup_scratch_and_output.2.1 _ (Or.inl rfl),
   c3_backup_scratch_and_output.2.2.2.2 _ (by decide)⟩

theorem cleanCore_app (abs : Bool) : ∀ (l stack t : List String),
    (∀ c ∈ l, validComp c = true) →
    cleanCore abs stack (l ++ t) = cleanCore abs (l.reverse ++ stack) t := by
  intro l
  induction l with
  | nil => intro stack t _; simp
  | cons c rest ih =>
    intro stack t hv
    have hc := hv c (by simp)
    simp only [validComp, Bool.and_eq_true, Bool.not_eq_true', beq_eq_false_iff_ne,
      ne_eq] at hc
    obtain ⟨⟨hc1, hc2⟩, hc3⟩ := hc
    show cleanCore abs stack (c :: (rest ++ t)) = _
    rw [show cleanCore abs stack (c :: (rest ++ t)) = cleanCore abs (c :: stack) (rest ++ t) by
      conv_lhs => unfold cleanCore
      rw [if_neg (by tauto), if_neg hc3]]
    rw [ih (c :: stack) t (fun x hx => hv x (by simp [hx]))]
    simp

theorem cleanCore_valid (abs : Bool) (l : List String)
    (hv : ∀ c ∈ l, validComp c = true) :
    cleanCore abs [] l = l := by
  have := cleanCore_app abs l [] [] hv
  simp only [List.append_nil] at this
  rw [this]
  show l.reverse.reverse = l
  simp

theorem cleanCore_valid_dir (abs : Bool) (l : List String)
    (hv : ∀ c ∈ l, validComp c = true) :
    cleanCore abs [] (l ++ [""]) = l := by
  rw [cleanCore_app abs l [] [""] hv]
  show cleanCore abs (l.reverse ++ []) [""] = l
  unfold cleanCore
  rw [if_pos (by simp)]
  show (l.reverse ++ []).reverse = l
  simp

theorem trimOneSlash_cons (c : String) (p : List String) (hc : ¬ c = "") :
    trimOneSlash (c :: p) = c :: p := by
  unfold trimOneSlash
  split
  · next rest heq =>
    rw [List.cons.injEq] at heq
    exact absurd heq.1 hc
  · rfl

theorem cleanPath_head (c : String) (rest : List String) (hc : ¬ c = "") :
    cleanPath (c :: rest) = ⟨false, cleanCore false [] (c :: rest)⟩ := by
  unfold cleanPath
  split
  · next r heq =>
    rw [List.cons.injEq] at heq
    exact absurd heq.1 hc
  · rfl

theorem relGo_self (b : List String) : ∀ t, relGo b (b ++ t) = some t := by
  induction b with
  | nil => intro t; rfl
  | cons x bs ih =>
    intro t
    show relGo (x :: bs) (x :: (bs ++ t)) = some t
    unfold relGo
    rw [if_pos rfl]
    exact ih t

theorem validComp_ne (c : String) (h : validComp c = true) :
    ¬ c = "" ∧ ¬ c = "." ∧ ¬ c = ".." := by
  simp only [validComp, Bool.and_eq_true, Bool.not_eq_true', beq_eq_false_iff_ne,
    ne_eq] at h
  exact ⟨h.1.1, h.1.2, h.2⟩

theorem cleanPath_valid_cons (c : String) (p : List String)
    (hv : ∀ x ∈ c :: p, validComp x = true) :
    cleanPath (c :: p) = ⟨false, c :: p⟩ := by
  rw [cleanPath_head c p (validComp_ne c (hv c (by simp))).1,
    cleanCore_valid false (c :: p) hv]

theorem cleanPath_valid_dir (c : String) (p : List String)
    (hv : ∀ x ∈ c :: p, validComp x = true) :
    cleanPath (c :: p ++ [""]) = ⟨false, c :: p⟩ := by
  rw [show (c :: p) ++ [""] = c :: (p ++ [""]) by simp]
  rw [cleanPath_head c (p ++ [""]) (validComp_ne c (hv c (by simp))).1]
  rw [show (c :: (p ++ [""])) = (c :: p) ++ [""] by simp]
  rw [cleanCore_valid_dir false (c :: p) hv]

theorem secureJoin_valid (baseDir : List String) (dest : String) (p : List String)
    (hb : ∀ c ∈ (cleanPath baseDir).comps, validComp c = true)
    (hv : ∀ x ∈ dest :: p, validComp x = true)
    (hdd : startsDotDot dest = false)
    (name : List String)
    (hcn : cleanPath (trimOneSlash name) = ⟨false, dest :: p⟩) :
    secureJoin baseDir name =
      some ⟨(cleanPath baseDir).abs, (cleanPath baseDir).comps ++ dest :: p⟩ := by
  unfold secureJoin
  rw [hcn]
  dsimp only
  rw [if_neg (by simp)]
  have hjoin : joinCleaned (cleanPath baseDir) ⟨false, dest :: p⟩ =
      ⟨(cleanPath baseDir).abs, (cleanPath baseDir).comps ++ dest :: p⟩ := by
    unfold joinCleaned
    dsimp only
    rw [cleanCore_valid _ _ (by
      intro x hx
      rcases List.mem_append.mp hx with hx1 | hx2
      · exact hb x hx1
      · exact hv x hx2)]
  rw [hjoin]
  have hrel : relPath (cleanPath baseDir)
      ⟨(cleanPath baseDir).abs, (cleanPath baseDir).comps ++ dest :: p⟩ =
      some (dest :: p) := by
    unfold relPath
    rw [if_pos rfl]
    exact relGo_self _ _
  rw [hrel]
  dsimp only
  rw [show headHasDotDot (dest :: p) = false from hdd]
  simp

theorem secureJoin_file (baseDir : List String) (dest : String) (p : List String)
    (hb : ∀ c ∈ (cleanPath baseDir).comps, validComp c = true)
    (hv : ∀ x ∈ dest :: p, validComp x = true)
    (hdd : startsDotDot dest = false) :
    secureJoin baseDir (dest :: p) =
      some ⟨(cleanPath baseDir).abs, (cleanPath baseDir).comps ++ dest :: p⟩ := by
  refine secureJoin_valid baseDir dest p hb hv hdd _ ?_
  rw [trimOneSlash_cons dest p (validComp_ne dest (hv dest (by simp))).1]
  exact cleanPath_valid_cons dest p hv

theorem secureJoin_dir (baseDir : List String) (dest : String) (p : List String)
    (hb : ∀ c ∈ (cleanPath baseDir).comps, validComp c = true)
    (hv : ∀ x ∈ dest :: p, validComp x = true)
    (hdd : startsDotDot dest = false) :
    secureJoin baseDir (dest :: p ++ [""]) =
      some ⟨(cleanPath baseDir).abs, (cleanPath baseDir).comps ++ dest :: p⟩ := by
  refine secureJoin_valid baseDir dest p hb hv hdd _ ?_
  rw [show (dest :: p) ++ [""] = dest :: (p ++ [""]) by simp]
  rw [trimOneSlash_cons dest (p ++ [""]) (validComp_ne dest (hv dest (by simp))).1]
  rw [show (dest :: (p ++ [""])) = (dest :: p) ++ [""] by simp]
  exact cleanPath_valid_dir dest p hv

theorem mkdirAll_fast (fs : FS) (p : List String) (h : fs p = some Node.dirN) :
    mkdirAll fs p = (fs, true) := by
  unfold mkdirAll
  rw [h]

theorem mkdirAllFrom_one (l : List String) : ∀ (fs : FS) (pre : List String),
    l ≠ [] →
    (∀ k, 0 < k → k < l.length → fs (pre ++ l.take k) = some Node.dirN) →
    fs (pre ++ l) = none →
    mkdirAllFrom fs pre l = (fsUpd fs (pre ++ l) Node.dirN, true) := by
  induction l with
  | nil => intro fs pre h _ _; exact absurd rfl h
  | cons c rest ih =>
    intro fs pre _ hmid hnone
    cases rest with
    | nil =>
      unfold mkdirAllFrom
      rw [show fs (pre ++ [c]) = none from hnone]
      rfl
    | cons d rest2 =>
      have h1 : fs (pre ++ [c]) = some Node.dirN := by
        have := hmid 1 (by omega) (by simp)
        simpa using this
      unfold mkdirAllFrom
      rw [h1]
      dsimp only
      have hmid2 : ∀ k, 0 < k → k < (d :: rest2).length →
          fs ((pre ++ [c]) ++ (d :: rest2).take k) = some Node.dirN := by
        intro k hk hkl
        have hkl2 : k < rest2.length + 1 := by simpa using hkl
        have := hmid (k + 1) (by omega) (by simp; omega)
        simpa [List.take_succ_cons, List.append_assoc] using this
      have hnone2 : fs ((pre ++ [c]) ++ (d :: rest2)) = none := by
        simpa [List.append_assoc] using hnone
      rw [ih fs (pre ++ [c]) (by simp) hmid2 hnone2]
      simp [List.append_assoc]

theorem mkdirAll_create (fs : FS) (t : List String)
    (ht : t ≠ [])
    (hroot : fs [] = some Node.dirN)
    (hmid : ∀ k, 0 < k → k < t.length → fs (t.take k) = some Node.dirN)
    (hnone : fs t = none) :
    mkdirAll fs t = (fsUpd fs t Node.dirN, true) := by
  unfold mkdirAll
  rw [hnone, hroot]
  have := mkdirAllFrom_one t fs [] ht
    (by intro k hk hkl; simpa using hmid k hk hkl) (by simpa using hnone)
  simpa using this

theorem isPre_take (l m : List String) (k : Nat) (hk : k ≤ l.length) :
    isPre ((l ++ m).take k) l = true := by
  rw [List.take_append_eq_append_take, Nat.sub_eq_zero_of_le hk, List.take_zero,
    List.append_nil]
  exact (isPre_iff _ _).mpr (List.take_prefix k l)

theorem take_append_add (l m : List String) (k : Nat) :
    (l ++ m).take (l.length + k) = l ++ m.take k := by
  rw [List.take_append_eq_append_take, List.take_of_length_le (by omega)]
  have h2 : l.length + k - l.length = k := by omega
  rw [h2]

theorem isPre_app_cons (l : List String) (x : String) (xs : List String) :
    isPre (l ++ x :: xs) l = false := by
  by_contra h
  rw [Bool.not_eq_false] at h
  have hlen := ((isPre_iff _ _).mp h).length_le
  simp at hlen

theorem append_cons_ne (l : List String) (x : String) (xs : List String) :
    l ++ x :: xs ≠ l := by
  intro h
  have := congrArg List.length h
  simp at this

theorem dropPre_append (l : List String) : ∀ p, dropPre l (l ++ p) = some p := by
  induction l with
  | nil => intro p; rfl
  | cons a as ih =>
    intro p
    show dropPre (a :: as) (a :: (as ++ p)) = some p
    unfold dropPre
    rw [if_pos rfl]
    exact ih p

theorem dropPre_some (l : List String) : ∀ q p, dropPre l q = some p → q = l ++ p := by
  induction l with
  | nil =>
    intro q p h
    simp [dropPre] at h
    simp [h]
  | cons a as ih =>
    intro q p h
    cases q with
    | nil => simp [dropPre] at h
    | cons b bs =>
      unfold dropPre at h
      by_cases hab : a = b
      · rw [if_pos hab] at h
        simp [hab, ih bs p h]
      · rw [if_neg hab] at h
        exact absurd h (by simp)

theorem keyIn_false_lookup (tree : List (List String × Node)) (p : List String)
    (h : keyIn tree p = false) : lookupKey tree p = none := by
  simp only [keyIn, List.any_eq_false] at h
  unfold lookupKey
  rw [List.find?_eq_none.mpr h]

theorem lookupKey_append_left (l1 l2 : List (List String × Node)) (p : List String)
    (n : Node) (h : lookupKey l1 p = some n) :
    lookupKey (l1 ++ l2) p = some n := by
  unfold lookupKey at h ⊢
  rw [List.find?_append]
  cases hf : l1.find? (fun e => e.1 == p) with
  | none => rw [hf] at h; exact absurd h (by simp)
  | some e =>
    rw [hf] at h
    rw [show (some e).or (l2.find? (fun e => e.1 == p)) = some e by simp]
    exact h

theorem lookupKey_append_fresh (l1 l2 : List (List String × Node)) (p : List String)
    (h : keyIn l1 p = false) :
    lookupKey (l1 ++ l2) p = lookupKey l2 p := by
  unfold lookupKey
  rw [List.find?_append]
  have hf : l1.find? (fun e => e.1 == p) = none := by
    simp only [keyIn, List.any_eq_false] at h
    exact List.find?_eq_none.mpr h
  rw [hf, Option.none_or]

theorem lookupKey_single_eq (p : List String) (n : Node) : lookupKey [(p, n)] p = some n := by
  simp [lookupKey]

theorem lookupKey_single_ne (p q : List String) (n : Node) (h : q ≠ p) :
    lookupKey [(p, n)] q = none := by
  unfold lookupKey
  rw [List.find?_eq_none.mpr]
  intro e he
  rw [List.mem_singleton] at he
  subst he
  simp only [beq_iff_eq]
  exact fun hh => h hh.symm

theorem parentsIn_mem (done : List (List String × Node)) (p : List String)
    (h : parentsIn done p = true) :
    ∀ k, 0 < k → k < p.length → (p.take k, Node.dirN) ∈ done := by
  intro k hk hkl
  unfold parentsIn at h
  rw [List.all_eq_true] at h
  have hr := h k (List.mem_range.mpr hkl)
  simp only [Bool.or_eq_true, beq_iff_eq, decide_eq_true_eq] at hr
  rcases hr with h0 | hmem
  · omega
  · exact hmem

theorem append_right_ne (l p : List String) (hp : p ≠ []) : l ++ p ≠ l := by
  intro h
  exact hp (List.append_cancel_left (h.trans (List.append_nil l).symm))

theorem expectedFS_pre (baseDir : List String) (dest : String)
    (tree : List (List String × Node)) (q : List String)
    (h : isPre q (cleanPath baseDir).comps = true) :
    expectedFS baseDir dest tree q = some Node.dirN := by
  unfold expectedFS
  rw [if_pos h]

theorem expectedFS_dest (baseDir : List String) (dest : String)
    (tree : List (List String × Node)) :
    expectedFS baseDir dest tree ((cleanPath baseDir).comps ++ [dest]) = some Node.dirN := by
  unfold expectedFS
  rw [if_neg (by simp [isPre_app_cons]), if_pos rfl]

theorem expectedFS_sub (baseDir : List String) (dest : String)
    (tree : List (List String × Node)) (p : List String) (hp : p ≠ []) :
    expectedFS baseDir dest tree ((cleanPath baseDir).comps ++ dest :: p) =
      lookupKey tree p := by
  have hq : (cleanPath baseDir).comps ++ dest :: p =
      ((cleanPath baseDir).comps ++ [dest]) ++ p := by simp
  unfold expectedFS
  rw [if_neg (by simp [isPre_app_cons])]
  rw [if_neg (by rw [hq]; exact append_right_ne _ p hp)]
  rw [hq, dropPre_append]

theorem lookup_none_keyIn (done : List (List String × Node)) (p : List String)
    (h : lookupKey done p = none) : keyIn done p = false := by
  unfold lookupKey at h
  cases hf : done.find? (fun e => e.1 == p) with
  | some e => rw [hf] at h; exact absurd h (by simp)
  | none =>
    simp only [keyIn, List.any_eq_false]
    intro e he
    have := List.find?_eq_none.mp hf e he
    simpa using this

theorem expectedFS_append_ne (baseDir : List String) (dest : String)
    (done : List (List String × Node)) (e : List String × Node) (q : List String)
    (hq : q ≠ (cleanPath baseDir).comps ++ dest :: e.1) :
    expectedFS baseDir dest (done ++ [e]) q = expectedFS baseDir dest done q := by
  unfold expectedFS
  by_cases h1 : isPre q (cleanPath baseDir).comps = true
  · rw [if_pos h1, if_pos h1]
  · rw [if_neg h1, if_neg h1]
    by_cases h2 : q = (cleanPath baseDir).comps ++ [dest]
    · rw [if_pos h2, if_pos h2]
    · rw [if_neg h2, if_neg h2]
      cases hd : dropPre ((cleanPath baseDir).comps ++ [dest]) q with
      | none => rfl
      | some p =>
        dsimp only
        have hqp := dropPre_some _ q p hd
        have hpe : p ≠ e.1 := by
          intro he
          apply hq
          rw [hqp, he]
          simp
        cases hl : lookupKey done p with
        | some n => rw [lookupKey_append_left done [e] p n hl]
        | none =>
          rw [lookupKey_append_fresh done [e] p (lookup_none_keyIn done p hl)]
          rw [show lookupKey [e] p = lookupKey [(e.1, e.2)] p from rfl]
          rw [lookupKey_single_ne e.1 p e.2 hpe]

theorem expectedFS_append_new (baseDir : List String) (dest : String)
    (done : List (List String × Node)) (e : List String × Node)
    (hnew : keyIn done e.1 = false) (hne : e.1 ≠ []) :
    expectedFS baseDir dest (done ++ [e])
      ((cleanPath baseDir).comps ++ dest :: e.1) = some e.2 := by
  rw [expectedFS_sub baseDir dest (done ++ [e]) e.1 hne]
  rw [lookupKey_append_fresh done [e] e.1 hnew]
  rw [show lookupKey [e] e.1 = lookupKey [(e.1, e.2)] e.1 from rfl]
  exact lookupKey_single_eq e.1 e.2

theorem extract_step_entry (baseDir : List String) (dest : String)
    (done : List (List String × Node)) (e : List String × Node) (fs : FS)
    (hb : ∀ c ∈ (cleanPath baseDir).comps, validComp c = true)
    (hdv : validComp dest = true) (hdd : startsDotDot dest = false)
    (hne : e.1 ≠ []) (hev : e.1.all validComp = true)
    (hpar : parentsIn done e.1 = true) (hnew : keyIn done e.1 = false)
    (hLK : ∀ p n, (p, n) ∈ done → lookupKey done p = some n)
    (hF : ∀ q, fs q = expectedFS baseDir dest done q) :
    extractStep baseDir fs (walkHeader dest e.1 e.2) =
      (fsUpd fs ((cleanPath baseDir).comps ++ dest :: e.1) e.2, none) := by
  have hvald : ∀ x ∈ dest :: e.1, validComp x = true := by
    intro x hx
    rcases List.mem_cons.mp hx with h | h
    · rw [h]; exact hdv
    · exact List.all_eq_true.mp hev x h
  have hT0 : (cleanPath baseDir).comps ++ dest :: e.1 ≠ [] := by simp
  have hnoneT : fs ((cleanPath baseDir).comps ++ dest :: e.1) = none := by
    rw [hF, expectedFS_sub baseDir dest done e.1 hne]
    exact keyIn_false_lookup done e.1 hnew
  have hroot : fs [] = some Node.dirN := by
    rw [hF]
    exact expectedFS_pre baseDir dest done [] rfl
  have hdestp : fs ((cleanPath baseDir).comps ++ [dest]) = some Node.dirN := by
    rw [hF]
    exact expectedFS_dest baseDir dest done
  have hmid : ∀ j, 0 < j → j < ((cleanPath baseDir).comps ++ dest :: e.1).length →
      fs (((cleanPath baseDir).comps ++ dest :: e.1).take j) = some Node.dirN := by
    intro j hj hjl
    by_cases hjb : j ≤ (cleanPath baseDir).comps.length
    · rw [hF]
      exact expectedFS_pre baseDir dest done _ (isPre_take _ _ j hjb)
    · push_neg at hjb
      obtain ⟨k, hk⟩ : ∃ k, j = (cleanPath baseDir).comps.length + (k + 1) :=
        ⟨j - (cleanPath baseDir).comps.length - 1, by omega⟩
      subst hk
      rw [take_append_add _ _ (k + 1), List.take_succ_cons]
      by_cases hk0 : k = 0
      · subst hk0
        rw [List.take_zero]
        simpa using hdestp
      · have hkpos : 0 < k := Nat.pos_of_ne_zero hk0
        have hlen2 : ((cleanPath baseDir).comps ++ dest :: e.1).length =
            (cleanPath baseDir).comps.length + (e.1.length + 1) := by simp
        have hkl : k < e.1.length := by omega
        have hmem := parentsIn_mem done e.1 hpar k hkpos hkl
        have htk : e.1.take k ≠ [] := by
          rw [Ne, List.take_eq_nil_iff]
          push_neg
          exact ⟨hk0, hne⟩
        rw [hF, expectedFS_sub baseDir dest done _ htk]
        exact hLK _ _ hmem
  cases hn : e.2 with
  | dirN =>
    dsimp only [walkHeader]
    unfold extractStep
    dsimp only
    rw [secureJoin_dir baseDir dest e.1 hb hvald hdd]
    dsimp only
    rw [mkdirAll_create fs _ hT0 hroot hmid hnoneT]
    simp
  | fileN sz =>
    dsimp only [walkHeader]
    unfold extractStep
    dsimp only
    rw [secureJoin_file baseDir dest e.1 hb hvald hdd]
    dsimp only
    have hdrop : fs (((cleanPath baseDir).comps ++ dest :: e.1).dropLast) =
        some Node.dirN := by
      rw [List.dropLast_append_of_ne_nil _ (by simp : (dest :: e.1) ≠ [])]
      rw [List.dropLast_cons_of_ne_nil hne]
      by_cases hdl : e.1.dropLast = []
      · rw [hdl]
        simpa using hdestp
      · have hlen1 : 0 < e.1.length - 1 := by
          by_contra h0
          push_neg at h0
          apply hdl
          rw [List.dropLast_eq_take, show e.1.length - 1 = 0 by omega]
          rfl
        have hmem := parentsIn_mem done e.1 hpar (e.1.length - 1) hlen1 (by
          have : 0 < e.1.length := List.length_pos.mpr hne
          omega)
        rw [List.dropLast_eq_take]
        rw [hF, expectedFS_sub baseDir dest done _
          (by rw [← List.dropLast_eq_take]; exact hdl)]
        exact hLK _ _ hmem
    rw [mkdirAll_fast fs _ hdrop]
    dsimp only
    rw [hnoneT]
    simp
  | symlinkN s =>
    dsimp only [walkHeader]
    unfold extractStep
    dsimp only
    rw [secureJoin_file baseDir dest e.1 hb hvald hdd]
    dsimp only
    have hdrop : fs (((cleanPath baseDir).comps ++ dest :: e.1).dropLast) =
        some Node.dirN := by
      rw [List.dropLast_append_of_ne_nil _ (by simp : (dest :: e.1) ≠ [])]
      rw [List.dropLast_cons_of_ne_nil hne]
      by_cases hdl : e.1.dropLast = []
      · rw [hdl]
        simpa using hdestp
      · have hlen1 : 0 < e.1.length - 1 := by
          by_contra h0
          push_neg at h0
          apply hdl
          rw [List.dropLast_eq_take, show e.1.length - 1 = 0 by omega]
          rfl
        have hmem := parentsIn_mem done e.1 hpar (e.1.length - 1) hlen1 (by
          have : 0 < e.1.length := List.length_pos.mpr hne
          omega)
        rw [List.dropLast_eq_take]
        rw [hF, expectedFS_sub baseDir dest done _
          (by rw [← List.dropLast_eq_take]; exact hdl)]
        exact hLK _ _ hmem
    rw [mkdirAll_fast fs _ hdrop]
    dsimp only
    rw [hnoneT]
    simp

theorem extract_tree_aux (baseDir : List String) (dest : String)
    (hb : ∀ c ∈ (cleanPath baseDir).comps, validComp c = true)
    (hdv : validComp dest = true) (hdd : startsDotDot dest = false) :
    ∀ (rest done : List (List String × Node)) (fs : FS),
    treeWF done rest = true →
    (∀ p n, (p, n) ∈ done → lookupKey done p = some n) →
    (∀ q, fs q = expectedFS baseDir dest done q) →
    (extractC none baseDir fs (rest.map (fun x => walkHeader dest x.1 x.2))).2 = none
    ∧ ∀ q, (extractC none baseDir fs (rest.map (fun x => walkHeader dest x.1 x.2))).1 q
        = expectedFS baseDir dest (done ++ rest) q := by
  intro rest
  induction rest with
  | nil =>
    intro done fs _ _ hF
    refine ⟨rfl, ?_⟩
    intro q
    rw [List.append_nil]
    exact hF q
  | cons e rest2 ih =>
    intro done fs hwf hLK hF
    have hwfc := hwf
    unfold treeWF at hwfc
    simp only [Bool.and_eq_true, Bool.not_eq_true'] at hwfc
    obtain ⟨⟨⟨⟨hne0, hev⟩, hpar⟩, hnew⟩, hwf2⟩ := hwfc
    have hne : e.1 ≠ [] := by
      intro h
      rw [h] at hne0
      simp at hne0
    have hstep := extract_step_entry baseDir dest done e fs hb hdv hdd hne hev hpar hnew
      hLK hF
    have hred : extractC none baseDir fs
        ((e :: rest2).map (fun x => walkHeader dest x.1 x.2)) =
        extractC none baseDir (fsUpd fs ((cleanPath baseDir).comps ++ dest :: e.1) e.2)
          (rest2.map (fun x => walkHeader dest x.1 x.2)) := by
      rw [List.map_cons]
      have hu : extractC none baseDir fs
          (walkHeader dest e.1 e.2 :: rest2.map (fun x => walkHeader dest x.1 x.2)) =
          (let r := extractStep baseDir fs (walkHeader dest e.1 e.2)
           match r.2 with
           | some er => (r.1, some er)
           | none => extractC (Option.map Nat.pred none) baseDir r.1
               (rest2.map (fun x => walkHeader dest x.1 x.2))) := rfl
      rw [hu, hstep]
      rfl
    rw [hred]
    have hLK2 : ∀ p n, (p, n) ∈ done ++ [e] → lookupKey (done ++ [e]) p = some n := by
      intro p n hm
      rcases List.mem_append.mp hm with hm1 | hm2
      · exact lookupKey_append_left done [e] p n (hLK p n hm1)
      · rw [List.mem_singleton] at hm2
        have hp : p = e.1 := by rw [← hm2]
        have hnn : n = e.2 := by rw [← hm2]
        subst hp
        subst hnn
        rw [lookupKey_append_fresh done [e] e.1 hnew]
        rw [show lookupKey [e] e.1 = lookupKey [(e.1, e.2)] e.1 from rfl]
        exact lookupKey_single_eq e.1 e.2
    have hF2 : ∀ q, fsUpd fs ((cleanPath baseDir).comps ++ dest :: e.1) e.2 q
        = expectedFS baseDir dest (done ++ [e]) q := by
      intro q
      unfold fsUpd
      by_cases hq : q = (cleanPath baseDir).comps ++ dest :: e.1
      · rw [if_pos hq, hq, expectedFS_append_new baseDir dest done e hnew hne]
      · rw [if_neg hq, hF q, ← expectedFS_append_ne baseDir dest done e q hq]
    have hfin := ih (done ++ [e]) _ hwf2 hLK2 hF2
    rw [show (done ++ [e]) ++ rest2 = done ++ e :: rest2 by simp] at hfin
    exact hfin

theorem initFS_step (baseDir : List String) (dest : String)
    (hb : ∀ c ∈ (cleanPath baseDir).comps, validComp c = true)
    (hdv : validComp dest = true) (hdd : startsDotDot dest = false) :
    extractStep baseDir (initFS baseDir) ⟨[dest, ""], TarType.dir, 0, ""⟩ =
      (fsUpd (initFS baseDir) ((cleanPath baseDir).comps ++ [dest]) Node.dirN, none) := by
  have hvald0 : ∀ x ∈ dest :: ([] : List String), validComp x = true := by
    intro x hx
    rw [List.mem_singleton] at hx
    rw [hx]
    exact hdv
  unfold extractStep
  rw [show ([dest, ""] : List String) = (dest :: []) ++ [""] from rfl]
  rw [secureJoin_dir baseDir dest [] hb hvald0 hdd]
  dsimp only
  rw [mkdirAll_create (initFS baseDir) _ (by simp)
    (by
      unfold initFS
      rw [if_pos (show isPre [] (cleanPath baseDir).comps = true from rfl)])
    (by
      intro j hj hjl
      have hjb : j ≤ (cleanPath baseDir).comps.length := by
        have : ((cleanPath baseDir).comps ++ dest :: ([] : List String)).length =
            (cleanPath baseDir).comps.length + 1 := by simp
        omega
      unfold initFS
      rw [if_pos (isPre_take _ _ j hjb)])
    (by
      unfold initFS
      rw [if_neg (by simp [isPre_app_cons])])]
  simp

/-- C2: the round trip through the tar implementation.  For any source set
S given as a directory tree in WalkDir visit order — arbitrary nesting,
empty directories, regular files and symlinks — with usable component names
and a well-formed destination, CreateArchive of the directory source
succeeds, ExtractArchive of the produced archive into a fresh destination
directory succeeds, and the extracted filesystem is exactly the one the
specification's Extract(Create(S)) == S equation describes: below
baseDir/dest stand precisely the entries of S with their node kinds, file
sizes and symlink targets, and nothing else exists. -/
theorem c2_create_extract_round_trip (baseDir : List String) (dest : String)
    (tree : List (List String × Node))
    (hb : ∀ c ∈ (cleanPath baseDir).comps, validComp c = true)
    (hdv : validComp dest = true) (hdd : startsDotDot dest = false)
    (hwf : treeWF [] tree = true) :
    (CreateArchive none [SourceSpec.dirSrc dest tree]).err = none
    ∧ (ExtractArchive none baseDir
        (CreateArchive none [SourceSpec.dirSrc dest tree]).hdrs).2 = none
    ∧ (∀ q, (ExtractArchive none baseDir
        (CreateArchive none [SourceSpec.dirSrc dest tree]).hdrs).1 q
          = expectedFS baseDir dest tree q) := by
  have hcr : CreateArchive none [SourceSpec.dirSrc dest tree] =
      ⟨true, dirHeaders dest tree, none⟩ := by
    unfold CreateArchive
    rw [createC_none]
    simp [fullCreateHeaders, sourceHeaders]
  rw [hcr]
  refine ⟨rfl, ?_⟩
  have hF1 : ∀ q, fsUpd (initFS baseDir) ((cleanPath baseDir).comps ++ [dest]) Node.dirN q
      = expectedFS baseDir dest [] q := by
    intro q
    unfold fsUpd
    by_cases hq : q = (cleanPath baseDir).comps ++ [dest]
    · rw [if_pos hq, hq, expectedFS_dest]
    · rw [if_neg hq]
      unfold initFS expectedFS
      by_cases h1 : isPre q (cleanPath baseDir).comps = true
      · rw [if_pos h1, if_pos h1]
      · rw [if_neg h1, if_neg h1, if_neg hq]
        cases hd : dropPre ((cleanPath baseDir).comps ++ [dest]) q
        · rfl
        · rfl
  have hredX : ExtractArchive none baseDir (dirHeaders dest tree) =
      extractC none baseDir
        (fsUpd (initFS baseDir) ((cleanPath baseDir).comps ++ [dest]) Node.dirN)
        (tree.map (fun x => walkHeader dest x.1 x.2)) := by
    unfold ExtractArchive dirHeaders
    have hu : extractC none baseDir (initFS baseDir)
        (⟨[dest, ""], TarType.dir, 0, ""⟩ :: tree.map (fun x => walkHeader dest x.1 x.2)) =
        (let r := extractStep baseDir (initFS baseDir) ⟨[dest, ""], TarType.dir, 0, ""⟩
         match r.2 with
         | some er => (r.1, some er)
         | none => extractC (Option.map Nat.pred none) baseDir r.1
             (tree.map (fun x => walkHeader dest x.1 x.2))) := rfl
    rw [hu, initFS_step baseDir dest hb hdv hdd]
    rfl
  have hmain := extract_tree_aux baseDir dest hb hdv hdd tree [] _ hwf
    (by intro p n h; simp at h) hF1
  rw [List.nil_append] at hmain
  rw [show (dirHeaders dest tree : List Header) =
    ⟨[dest, ""], TarType.dir, 0, ""⟩ :: tree.map (fun x => walkHeader dest x.1 x.2)
    from rfl] at hredX
  rw [show ((⟨[dest, ""], TarType.dir, 0, ""⟩ : Header) ::
    tree.map (fun x => walkHeader dest x.1 x.2)) = dirHeaders dest tree from rfl] at hredX
  rw [hredX]
  exact hmain

theorem c2_create_extract_round_trip_witness :
    (CreateArchive none [SourceSpec.dirSrc "sample" rtTree]).err = none
    ∧ (ExtractArchive none ["", "restore"]
        (CreateArchive none [SourceSpec.dirSrc "sample" rtTree]).hdrs).2 = none
    ∧ (ExtractArchive none ["", "restore"]
        (CreateArchive none [SourceSpec.dirSrc "sample" rtTree]).hdrs).1
        ["restore", "sample", "d1", "d2", "f"] = some (Node.fileN 7)
    ∧ (ExtractArchive none ["", "restore"]
        (CreateArchive none [SourceSpec.dirSrc "sample" rtTree]).hdrs).1
        ["restore", "sample", "empty"] = some Node.dirN
    ∧ (ExtractArchive none ["", "restore"]
        (CreateArchive none [SourceSpec.dirSrc "sample" rtTree]).hdrs).1
        ["restore", "sample", "ln"] = some (Node.symlinkN "d1/d2/f")
    ∧ (ExtractArchive none ["", "restore"]
        (CreateArchive none [SourceSpec.dirSrc "sample" rtTree]).hdrs).1
        ["restore", "sample", "d1", "zzz"] = none :=
  ⟨(c2_create_extract_round_trip ["", "restore"] "sample" rtTree (by decide) (by decide)
      (by decide) (by decide)).1,
   (c2_create_extract_round_trip ["", "restore"] "sample" rtTree (by decide) (by decide)
      (by decide) (by decide)).2.1,
   ((c2_create_extract_round_trip ["", "restore"] "sample" rtTree (by decide) (by decide)
      (by decide) (by decide)).2.2 ["restore", "sample", "d1", "d2", "f"]).trans (by decide),
   ((c2_create_extract_round_trip ["", "restore"] "sample" rtTree (by decide) (by decide)
      (by decide) (by decide)).2.2 ["restore", "sample", "empty"]).trans (by decide),
   ((c2_create_extract_round_trip ["", "restore"] "sample" rtTree (by decide) (by decide)
      (by decide) (by decide)).2.2 ["restore", "sample", "ln"]).trans (by decide),
   ((c2_create_extract_round_trip ["", "restore"] "sample" rtTree (by decide) (by decide)
      (by decide) (by decide)).2.2 ["restore", "sample", "d1", "zzz"]).trans (by decide)⟩
